import Mathlib

/-!
# Verification of the latgraph tube generator (`tubegen.py`)

This file is a shallow embedding of the carbon-nanotube generator
`tubegen.py` together with proofs about the embedded definitions.

## Embedding conventions

* Python integers become `ℕ`/`ℤ`.  The chirality `(n, m)` is a pair of
  naturals (the spec restricts to `n ≥ m ≥ 0`).
* `translation_vector_lat_basis` divides the integers `2m+n` and `2n+m`
  by their gcd using Python's true division; the values are exact
  integers, and they are embedded as the exact integer quotients
  `t1Z`/`t2Z`.
* All 2-D positions produced by the generator are rational linear
  combinations of the chiral vector `Ch` and the translation vector `T`
  (which are orthogonal).  A position is therefore represented by its
  exact coordinate pair `(c₁, c₂) : ℚ × ℚ` with `pos = c₁ • Ch + c₂ • T`.
  In this frame the source's operations translate exactly:
  `np.dot(pos, uCh) = c₁ * ‖Ch‖` so `np.dot(pos, uCh) % ch` becomes
  `Int.fract c₁` (scaled by `ch`), shifting by `pad_ch*Ch + pad_t*T`
  becomes adding `(pad_ch, pad_t)`, and the tolerant spatial lookup
  becomes exact equality of rational coordinate pairs.  The bridge to
  physical coordinates is the map `frame` below, and the lemmas
  `frame_chiral` / `frame_translation` verify that `Ch` and `T` have
  frame coordinates `(1,0)` and `(0,1)`.
* The floating-point test `np.abs(q % 1.) < 1e-10` for "q is an
  integer" (`symmetry_vector`) is embedded as exact divisibility
  `t1 ∣ 1 + p*t2`; `q` is a rational with denominator dividing `t1`,
  so for the in-range values the float test and exact integrality
  agree.
* Python's `ZeroDivisionError` (division by `gcd(0,0) = 0`) and
  `argparse`'s `parser.error` are embedded with the explicit error type
  `PyError`; fallible paths return `Except`/`Option`.
* The `lattice` module (class `Site`, `Lattice.at`, `shifted_lattice`)
  is not part of the sources; following the spec it is modelled as a
  record with index, position, neighbour/hopping lists and the
  extensible attributes used by the generator, a positional first-match
  lookup, and a position-shifting copy.

The `roll_tube` stage (3-D embedding) uses real trigonometric
functions and is embedded over `ℝ` in a second, noncomputable layer.
-/

namespace TG

/-! ## Integer layer: chirality-derived quantities -/

/-- `gcd(2*m+n, 2*n+m)`, called `dR` in `translation_vector_lat_basis`. -/
def dR (n m : ℕ) : ℕ := Nat.gcd (2*m+n) (2*n+m)

/-- `TubeGen.n_hex_ucell`: `2*(m*m + n*n + m*n)//gcd(2*m+n, 2*n+m)`.
Lean's `Nat` division agrees with Python `//` on naturals except that a
zero divisor yields `0` in Lean and raises `ZeroDivisionError` in
Python; the raising variant is `n_hex_ucellE`. -/
def n_hex_ucell (n m : ℕ) : ℕ := 2*(m*m + n*n + m*n) / dR n m

/-- `TubeGen.n_atoms_ucell`: `2*self.n_hex_ucell()`. -/
def n_atoms_ucell (n m : ℕ) : ℕ := 2 * n_hex_ucell n m

/-- Errors raised by the Python code: an uncaught `ZeroDivisionError`,
the `RuntimeError` of `symmetry_vector`, and `parser.error` (a
configuration error reported by argument parsing). -/
inductive PyError where
  | zeroDivision : PyError
  | runtime : String → PyError
  | configError : String → PyError
deriving DecidableEq, Repr

/-- `TubeGen.n_hex_ucell` with Python's division-by-zero behaviour made
explicit: `x // 0` raises `ZeroDivisionError`. -/
def n_hex_ucellE (n m : ℕ) : Except PyError ℕ :=
  if dR n m = 0 then .error .zeroDivision
  else .ok (2*(m*m + n*n + m*n) / dR n m)

/-- First component of `translation_vector_lat_basis`: `(2*m+n)/dR`
(an exact integer, embedded as the exact quotient). -/
def t1Z (n m : ℕ) : ℤ := ((2*m+n) / dR n m : ℕ)

/-- Second component of `translation_vector_lat_basis`: `-(2*n+m)/dR`. -/
def t2Z (n m : ℕ) : ℤ := -(((2*n+m) / dR n m : ℕ) : ℤ)

/-- `n*n + m*m + n*m`; `‖Ch‖² = 3*s²*gN`. -/
def gN (n m : ℕ) : ℕ := n*n + m*m + n*m

/-- `t1² + t1*t2 + t2²`; `‖T‖² = 3*s²*hZ`. -/
def hZ (n m : ℕ) : ℤ := t1Z n m * t1Z n m + t1Z n m * t2Z n m + t2Z n m * t2Z n m

/-- The search loop of `TubeGen.symmetry_vector`:
`for p in range(1, n_atoms_ucell()+1)`, return the first `p` with
`q = (1 + p*t2)/t1` an integer, as the pair `(p, q)`; `none` embeds the
`RuntimeError` branch.  The physical vector returned by the source is
`p*a1 + q*a2`, see `symmetry_vector` in the real layer. -/
def symVecPQ (n m : ℕ) : Option (ℤ × ℤ) :=
  (List.range' 1 (n_atoms_ucell n m)).findSome? fun (pp : ℕ) =>
    if t1Z n m ∣ (1 + (pp : ℤ) * t2Z n m) then
      some ((pp : ℤ), (1 + (pp : ℤ) * t2Z n m) / t1Z n m)
    else none

/-! ## The `Site` record

Modelled from the spec: the `lattice.Site` class is not among the
sources.  Per spec §3 a site has an integer index, a position, an
ordered neighbour list index-aligned with a hopping list, the sublattice
tag `even`, and the extensible attributes `pad_ch`, `pad_t`,
`cross_ch_boundary`, `cross_t_boundary` attached during generation.
Positions are stored in the exact `(Ch, T)` coordinate frame. -/

structure Site where
  idx : ℕ
  pos : ℚ × ℚ
  neighbours : List ℕ := []
  hopping : List ℕ := []
  even : Bool := true
  pad_ch : ℤ := 0
  pad_t : ℤ := 0
  cross_ch : List ℤ := []
  cross_t : List ℤ := []
deriving DecidableEq, Repr

/-! ## Frame coordinates -/

/-- Coordinates with respect to `(Ch, T)` of a vector given by its
coordinates `v` in the `(a1, a2)` basis: since `Ch ⊥ T`,
`c₁ = (v·Ch)/‖Ch‖²` and `c₂ = (v·T)/‖T‖²`, which evaluate to the
rational expressions below (`a1·a1 = a2·a2 = 3s²`, `a1·a2 = 3s²/2`). -/
def frame (n m : ℕ) (v : ℚ × ℚ) : ℚ × ℚ :=
  (((2*n+m : ℕ) * v.1 + ((n+2*m : ℕ) : ℚ) * v.2) / (2 * (gN n m : ℚ)),
   ((2 * t1Z n m + t2Z n m : ℤ) * v.1 + ((t1Z n m + 2 * t2Z n m : ℤ) : ℚ) * v.2) /
     (2 * (hZ n m : ℚ)))

/-- Componentwise fractional part: the embedding of
`np.dot(v, uCh) % ch` / `np.dot(v, uT) % t` applied to both frame
coordinates. -/
def fracP (c : ℚ × ℚ) : ℚ × ℚ := (Int.fract c.1, Int.fract c.2)

/-- `shift0 = 1/3 * (a1 + a2)` of `_connect_sites`, in frame coordinates. -/
def shift0 (n m : ℕ) : ℚ × ℚ := frame n m (1/3, 1/3)

/-- `shift1 = shift0 - a1`. -/
def shift1 (n m : ℕ) : ℚ × ℚ := shift0 n m - frame n m (1, 0)

/-- `shift2 = shift0 - a2`. -/
def shift2 (n m : ℕ) : ℚ × ℚ := shift0 n m - frame n m (0, 1)

/-- The three neighbour shifts tried by `_connect_sites`, in order. -/
def shifts (n m : ℕ) : List (ℚ × ℚ) := [shift0 n m, shift1 n m, shift2 n m]

/-! ## Unit cell construction (`_make_ucell`, `_padded_lattice`,
`_connect_sites`) -/

/-- Atom placement loop of `_make_ucell`: for
`i in range(n_atoms_ucell()//2)` place an even site at
`(i*R) mod (Ch, T)` (index `2i`) and an odd site at
`(i*R + eo_shift) mod (Ch, T)` (index `2i+1`), where `R = p*a1 + q*a2`
and `eo_shift = (a1+a2)/3`. -/
def ucellSites (n m : ℕ) (pp qq : ℤ) : List Site :=
  (List.range (n_atoms_ucell n m / 2)).flatMap fun i =>
    [{ idx := 2*i,
       pos := fracP (frame n m ((i : ℚ) * pp, (i : ℚ) * qq)),
       even := true },
     { idx := 2*i+1,
       pos := fracP (frame n m ((i : ℚ) * pp + 1/3, (i : ℚ) * qq + 1/3)),
       even := false }]

/-- The padding offsets `itertools.product((0, +1, -1), repeat=2)` of
`_padded_lattice`, in iteration order. -/
def pads : List (ℤ × ℤ) :=
  [(0, 0), (0, 1), (0, -1), (1, 0), (1, 1), (1, -1), (-1, 0), (-1, 1), (-1, -1)]

/-- `TubeGen._padded_lattice`: nine shifted copies of the input, each
site tagged with its `(pad_ch, pad_t)` origin.  Shifting a position by
`pad_ch*Ch + pad_t*T` adds `(pad_ch, pad_t)` in frame coordinates. -/
def paddedLattice (lat : List Site) : List Site :=
  pads.flatMap fun pd =>
    lat.map fun s =>
      { s with pos := s.pos + ((pd.1 : ℚ), (pd.2 : ℚ)), pad_ch := pd.1, pad_t := pd.2 }

/-- `TubeGen._connect_sites`: for each site, try the three shifts
(sign flipped on odd sites), look the candidate position up in the
padded lattice (`padded.at`, modelled from the spec as the first
tolerant positional match, here exact on rational frame coordinates),
and record neighbour index, unit hopping, and the pad tags of the match
as the bond's boundary-crossing flags. -/
def connectSites (n m : ℕ) (lat : List Site) : List Site :=
  let padded := paddedLattice lat
  lat.map fun site =>
    let found := (shifts n m).filterMap fun sh =>
      padded.find? fun t =>
        decide (t.pos = (if site.even then site.pos + sh else site.pos - sh))
    { site with
        neighbours := found.map (·.idx),
        hopping := List.replicate (found.map (·.idx)).length 1,
        cross_ch := found.map (·.pad_ch),
        cross_t := found.map (·.pad_t) }

/-- `TubeGen._make_ucell`: place the atoms and connect them; `none`
embeds the `RuntimeError` escaping from `symmetry_vector`. -/
def makeUcell (n m : ℕ) : Option (List Site) :=
  (symVecPQ n m).map fun pq => connectSites n m (ucellSites n m pq.1 pq.2)

/-! ## Ribbon assembly (`make_ribbon`, `_sow_cells`) -/

/-- Per-bond resolution of `_sow_cells` for a site of cell `i`: the body
of the `for neigh, xchb, xtb in zip(...)` loop.  `some` is an appended
target index, `none` a dropped bond. -/
def resolveBond (n_ucells luc i : ℕ) (bc_ch bc_t : String) (b : ℕ × ℤ × ℤ) : Option ℕ :=
  if b.2.1 = 0 ∨ bc_ch = "periodic" then
    if b.2.2 = 0 then
      some (b.1 + i * luc)
    else if b.2.2 = 1 ∧ (bc_t = "periodic" ∨ i ≠ n_ucells - 1) then
      some (b.1 + (((i + 1) % n_ucells) * luc))
    else if b.2.2 = -1 ∧ (bc_t = "periodic" ∨ i ≠ 0) then
      some (b.1 + ((((i : ℤ) - 1) % (n_ucells : ℤ)).toNat * luc))
    else none
  else none

/-- One site's update in `_sow_cells`: rebuild `neighbours` from the
recorded bonds.  Note the source overwrites only `site.neighbours`;
`hopping`, `cross_ch_boundary` and `cross_t_boundary` keep their
pre-assembly values. -/
def sowSite (n_ucells luc i : ℕ) (bc_ch bc_t : String) (site : Site) : Site :=
  { site with
      neighbours :=
        (site.neighbours.zip (site.cross_ch.zip site.cross_t)).filterMap
          (resolveBond n_ucells luc i bc_ch bc_t) }

/-- The double loop of `_sow_cells`
(`for i in range(n_ucells): for site in sites[i*luc:(i+1)*luc]`):
the site at global list index `j < n_ucells*luc` belongs to cell
`j / luc`; later sites are untouched. -/
def sowCellsAux (n_ucells luc : ℕ) (bc_ch bc_t : String) : ℕ → List Site → List Site
  | _, [] => []
  | j, s :: rest =>
      (if j < n_ucells * luc then sowSite n_ucells luc (j / luc) bc_ch bc_t s else s)
        :: sowCellsAux n_ucells luc bc_ch bc_t (j+1) rest

/-- `_sow_cells(sites, n_ucells, luc, bc_ch, bc_t)`. -/
def sowCells (sites : List Site) (n_ucells luc : ℕ) (bc_ch bc_t : String) : List Site :=
  sowCellsAux n_ucells luc bc_ch bc_t 0 sites

/-- `TubeGen.make_ribbon`: replicate the unit cell `n_ucells` times
along `T` (frame shift `(0, i)`, index offset `i*len(ucell)`), then sow
the cells together.  `none` embeds the `RuntimeError` escaping from
`symmetry_vector`. -/
def makeRibbon (n m n_ucells : ℕ) (bc_ch bc_t : String) : Option (List Site) :=
  (makeUcell n m).map fun ucell =>
    sowCells
      ((List.range n_ucells).flatMap fun i =>
        ucell.map fun site =>
          { site with idx := site.idx + i * ucell.length,
                      pos := site.pos + ((0 : ℚ), (i : ℚ)) })
      n_ucells ucell.length bc_ch bc_t

/-! ## Command-line argument handling (`_parse_args`, `run`) -/

/-- The boundary-condition normalisation of `_parse_args`
(lines 50–56 / 58–64): lowercase, expand the shorthands `p`/`o`, then
reject anything that is not `periodic`/`open` via `parser.error`. -/
def normalizeBC (which s : String) : Except PyError String :=
  let s := s.toLower
  let s := if s = "p" then "periodic" else if s = "o" then "open" else s
  if s = "periodic" ∨ s = "open" then .ok s
  else .error (.configError ("Unknown boundary condition for " ++ which ++ ": " ++ s))

/-- `_parse_args` normalisation/validation, in source order: embedding
first, then `bc_ch`, then `bc_t`.  Returns the normalised
`(emb, bc_ch, bc_t)`. -/
def parseTubeArgs (bc_ch bc_t emb : String) : Except PyError (String × String × String) := do
  let emb := emb.toLower
  if emb = "2d" ∨ emb = "3d" then
    let bc_ch ← normalizeBC "bc_ch" bc_ch
    let bc_t ← normalizeBC "bc_t" bc_t
    pure (emb, bc_ch, bc_t)
  else
    .error (.configError ("Unknown embedding: " ++ emb))

/-- The generation part of `run`: parse/validate the arguments, then
build the ribbon (`TubeGen(...)` itself performs no validation).  A
parse error propagates before any generation work; the 3-D embedding
step changes no connectivity and is kept in the real layer. -/
def runCLI (n m length : ℕ) (bc_ch bc_t emb : String) :
    Except PyError (Option (List Site)) := do
  let args ← parseTubeArgs bc_ch bc_t emb
  pure (makeRibbon n m length args.2.1 args.2.2)

/-! ## Real layer: physical vectors and `roll_tube` -/

noncomputable section RealLayer

/-- `TubeGen.unit_vectors`, first vector: `np.array([3/2, sqrt(3)/2])*spacing`. -/
def a1R (s : ℝ) : ℝ × ℝ := (3/2 * s, Real.sqrt 3 / 2 * s)

/-- `TubeGen.unit_vectors`, second vector: `np.array([3/2, -sqrt(3)/2])*spacing`. -/
def a2R (s : ℝ) : ℝ × ℝ := (3/2 * s, -(Real.sqrt 3 / 2 * s))

/-- `TubeGen.chiral_vector`: `n*a1 + m*a2`. -/
def chiral_vector (n m : ℕ) (s : ℝ) : ℝ × ℝ := (n : ℝ) • a1R s + (m : ℝ) • a2R s

/-- `np.linalg.norm` on a 2-D vector. -/
def norm2 (v : ℝ × ℝ) : ℝ := Real.sqrt (v.1^2 + v.2^2)

/-- `TubeGen.circumference`: `np.linalg.norm(self.chiral_vector())`. -/
def circumference (n m : ℕ) (s : ℝ) : ℝ := norm2 (chiral_vector n m s)

/-- `TubeGen.diameter`: `self.circumference()/np.pi`. -/
def diameter (n m : ℕ) (s : ℝ) : ℝ := circumference n m s / Real.pi

/-- `TubeGen.translation_vector`: `t1*a1 + t2*a2`. -/
def translation_vector (n m : ℕ) (s : ℝ) : ℝ × ℝ :=
  (t1Z n m : ℝ) • a1R s + (t2Z n m : ℝ) • a2R s

/-- `TubeGen.symmetry_vector`: `p*a1 + q*a2` for the `(p, q)` found by
the search loop; `none` embeds the `RuntimeError`. -/
def symmetry_vector (n m : ℕ) (s : ℝ) : Option (ℝ × ℝ) :=
  (symVecPQ n m).map fun pq => (pq.1 : ℝ) • a1R s + (pq.2 : ℝ) • a2R s

/-- `np.dot` on 2-D vectors. -/
def dot2 (v w : ℝ × ℝ) : ℝ := v.1 * w.1 + v.2 * w.2

/-- Physical position of a site from its exact frame coordinates:
`pos = c₁ • Ch + c₂ • T`. -/
def realPos (n m : ℕ) (s : ℝ) (c : ℚ × ℚ) : ℝ × ℝ :=
  ((c.1 : ℝ)) • chiral_vector n m s + ((c.2 : ℝ)) • translation_vector n m s

end RealLayer

/-- A 3-D site as produced by `roll_tube`:
`lattice.Site(site.idx, <3-D position>, site.neighbours, site.hopping)`. -/
structure Site3 where
  idx : ℕ
  pos : ℝ × ℝ × ℝ
  neighbours : List ℕ
  hopping : List ℕ

noncomputable section RollTube

/-- The per-site body of `TubeGen.roll_tube`: cylinder coordinates
`phi = angle_conversion * np.dot(site.pos, uCh)`,
`z = np.dot(site.pos, uT)`, new position
`(radius*cos(phi), radius*sin(phi), z)` with `radius = diameter()/2`,
index/neighbours/hopping taken from the input site. -/
def rollSite (n m : ℕ) (s : ℝ) (site : Site) : Site3 :=
  let Ch := chiral_vector n m s
  let uCh := (norm2 Ch)⁻¹ • Ch
  let T := translation_vector n m s
  let uT := (norm2 T)⁻¹ • T
  let radius := diameter n m s / 2
  let angle_conversion := 2 * Real.pi / norm2 (chiral_vector n m s)
  let phi := angle_conversion * dot2 (realPos n m s site.pos) uCh
  let z := dot2 (realPos n m s site.pos) uT
  { idx := site.idx,
    pos := (radius * Real.cos phi, radius * Real.sin phi, z),
    neighbours := site.neighbours,
    hopping := site.hopping }

/-- `TubeGen.roll_tube`: map each ribbon site to its rolled 3-D site. -/
def rollTube (n m : ℕ) (s : ℝ) (ribbon : List Site) : List Site3 :=
  ribbon.map (rollSite n m s)

end RollTube

/-! ## Helper lemmas: exact arithmetic of the chirality quantities -/

theorem two_mul_gN (n m : ℕ) : 2 * gN n m = (2*m+n)*m + (2*n+m)*n := by
  simp only [gN]; ring

theorem dR_dvd_two_gN (n m : ℕ) : dR n m ∣ 2 * gN n m := by
  rw [two_mul_gN]
  exact Nat.dvd_add ((Nat.gcd_dvd_left _ _).mul_right m) ((Nat.gcd_dvd_right _ _).mul_right n)

theorem n_hex_mul_dR (n m : ℕ) : n_hex_ucell n m * dR n m = 2 * gN n m := by
  have h := dR_dvd_two_gN n m
  have : 2*(m*m + n*n + m*n) = 2 * gN n m := by simp only [gN]; ring
  rw [n_hex_ucell, this, Nat.div_mul_cancel h]

theorem n_atoms_mul_dR (n m : ℕ) : n_atoms_ucell n m * dR n m = 4 * gN n m := by
  rw [n_atoms_ucell, Nat.mul_assoc, n_hex_mul_dR]
  ring

theorem dR_pos (n m : ℕ) (hn : 1 ≤ n) : 0 < dR n m :=
  Nat.gcd_pos_of_pos_right _ (by omega)

theorem dR_eq_zero_iff (n m : ℕ) : dR n m = 0 ↔ n = 0 ∧ m = 0 := by
  constructor
  · intro h
    have h1 := Nat.eq_zero_of_gcd_eq_zero_left h
    have h2 := Nat.eq_zero_of_gcd_eq_zero_right h
    omega
  · rintro ⟨rfl, rfl⟩
    rfl

/-! ## Claim C6: unit-cell hexagon/atom counts -/

/-- Claim C6: for every chirality pair `(n, m)` with `n ≥ m ≥ 1`,
`n_hex_ucell()` equals `2(n² + m² + nm) / gcd(2m+n, 2n+m)` computed in
exact integer arithmetic (the divisor divides the dividend, so the
floor division of the source is the exact quotient),
`n_atoms_ucell() = 2 * n_hex_ucell()`, and `n_atoms_ucell()` is even. -/
theorem claim_C6 (n m : ℕ) (hm : 1 ≤ m) (hmn : m ≤ n) :
    n_hex_ucell n m = 2 * (n*n + m*m + n*m) / Nat.gcd (2*m+n) (2*n+m) ∧
    Nat.gcd (2*m+n) (2*n+m) ∣ 2 * (n*n + m*m + n*m) ∧
    n_hex_ucell n m * Nat.gcd (2*m+n) (2*n+m) = 2 * (n*n + m*m + n*m) ∧
    n_atoms_ucell n m = 2 * n_hex_ucell n m ∧
    2 ∣ n_atoms_ucell n m := by
  refine ⟨?_, dR_dvd_two_gN n m, n_hex_mul_dR n m, rfl, ⟨n_hex_ucell n m, rfl⟩⟩
  simp only [n_hex_ucell, dR, gN]
  ring_nf

/-- Witness for C6 at the chirality `(2, 1)`. -/
theorem claim_C6_witness :
    (1 ≤ 1 ∧ 1 ≤ 2) ∧
    (n_hex_ucell 2 1 = 2 * (2*2 + 1*1 + 2*1) / Nat.gcd (2*1+2) (2*2+1) ∧
     Nat.gcd (2*1+2) (2*2+1) ∣ 2 * (2*2 + 1*1 + 2*1) ∧
     n_hex_ucell 2 1 * Nat.gcd (2*1+2) (2*2+1) = 2 * (2*2 + 1*1 + 2*1) ∧
     n_atoms_ucell 2 1 = 2 * n_hex_ucell 2 1 ∧
     2 ∣ n_atoms_ucell 2 1) :=
  ⟨by omega, claim_C6 2 1 (by omega) (by omega)⟩

/-! ## Claim C9: degenerate chirality -/

/-- Counterexample to claim C9 as stated: for the degenerate chirality
`(0, 0)` the code does not reject with a configuration error; the
division by `gcd(0,0) = 0` in `n_hex_ucell` propagates as an uncaught
`ZeroDivisionError`. -/
theorem claim_C9_counterexample :
    n_hex_ucellE 0 0 = Except.error PyError.zeroDivision := rfl

/-- Claim C9 (amended): for every degenerate chirality input (any input
making `gcd(2m+n, 2n+m) = 0`, equivalently `n = m = 0`), construction is
not rejected with a configuration error; instead the divide-by-zero
propagates: the first unit-cell-size query raises `ZeroDivisionError`. -/
theorem claim_C9 (n m : ℕ) (h : dR n m = 0) :
    (n = 0 ∧ m = 0) ∧
    n_hex_ucellE n m = Except.error PyError.zeroDivision ∧
    (∀ msg, n_hex_ucellE n m ≠ Except.error (PyError.configError msg)) := by
  refine ⟨(dR_eq_zero_iff n m).1 h, ?_, ?_⟩
  · simp [n_hex_ucellE, h]
  · intro msg hc
    simp [n_hex_ucellE, h] at hc

/-- Witness for C9 at the degenerate chirality `(0, 0)`. -/
theorem claim_C9_witness :
    dR 0 0 = 0 ∧
    ((0 = 0 ∧ 0 = 0) ∧
     n_hex_ucellE 0 0 = Except.error PyError.zeroDivision ∧
     (∀ msg, n_hex_ucellE 0 0 ≠ Except.error (PyError.configError msg))) :=
  ⟨rfl, claim_C9 0 0 rfl⟩

/-! ## Claim C1: the `neighbours` / `hopping` length invariant -/

/-- Claim C1 fails on the code: `_sow_cells` overwrites `neighbours`
with the boundary-filtered list but never updates `hopping`.  At
chirality `(1,1)`, one unit cell, open circumferential and periodic
axial boundary, site 0 loses two bonds and ends with one neighbour but
three hopping entries. -/
theorem claim_C1 :
    ∃ s ∈ (makeRibbon 1 1 1 "open" "periodic").getD [],
      s.neighbours.length = 1 ∧ s.hopping.length = 3 :=
  of_decide_eq_true (by with_unfolding_all rfl)

/-! ## Claims C2 and C10: boundary-condition token handling -/

theorem normalizeBC_ok_periodic (which s : String) :
    normalizeBC which s = .ok "periodic" ↔ s.toLower = "p" ∨ s.toLower = "periodic" := by
  by_cases h1 : s.toLower = "p"
  · simp [normalizeBC, h1]
  · by_cases h2 : s.toLower = "o"
    · simp [normalizeBC, h1, h2]
    · by_cases h3 : s.toLower = "periodic"
      · simp [normalizeBC, h1, h2, h3]
      · by_cases h4 : s.toLower = "open" <;> simp_all [normalizeBC]

theorem normalizeBC_ok_open (which s : String) :
    normalizeBC which s = .ok "open" ↔ s.toLower = "o" ∨ s.toLower = "open" := by
  by_cases h1 : s.toLower = "p"
  · simp [normalizeBC, h1]
  · by_cases h2 : s.toLower = "o"
    · simp [normalizeBC, h1, h2]
    · by_cases h3 : s.toLower = "periodic"
      · simp_all [normalizeBC]
      · by_cases h4 : s.toLower = "open" <;> simp_all [normalizeBC]

theorem normalizeBC_ok_shape (which s r : String) (h : normalizeBC which s = .ok r) :
    r = "periodic" ∨ r = "open" := by
  by_cases h1 : s.toLower = "p"
  · simp [normalizeBC, h1] at h; exact Or.inl h.symm
  · by_cases h2 : s.toLower = "o"
    · simp [normalizeBC, h1, h2] at h; exact Or.inr h.symm
    · by_cases h3 : s.toLower = "periodic"
      · simp [normalizeBC, h1, h2, h3] at h; exact Or.inl h.symm
      · by_cases h4 : s.toLower = "open"
        · simp [normalizeBC, h1, h2, h3, h4] at h; exact Or.inr h.symm
        · simp [normalizeBC, h1, h2, h3, h4] at h

theorem normalizeBC_error_iff (which s : String) :
    (∃ e, normalizeBC which s = .error e) ↔
      s.toLower ≠ "p" ∧ s.toLower ≠ "periodic" ∧ s.toLower ≠ "o" ∧ s.toLower ≠ "open" := by
  by_cases h1 : s.toLower = "p"
  · simp [normalizeBC, h1]
  · by_cases h2 : s.toLower = "o"
    · simp [normalizeBC, h1, h2]
    · by_cases h3 : s.toLower = "periodic"
      · simp [normalizeBC, h1, h2, h3]
      · by_cases h4 : s.toLower = "open" <;> simp_all [normalizeBC]

theorem parseTubeArgs_error_iff (bc_ch bc_t emb : String) :
    (∃ e, parseTubeArgs bc_ch bc_t emb = .error e) ↔
      (emb.toLower ≠ "2d" ∧ emb.toLower ≠ "3d") ∨
      (∃ e, normalizeBC "bc_ch" bc_ch = .error e) ∨
      (∃ e, normalizeBC "bc_t" bc_t = .error e) := by
  by_cases he : emb.toLower = "2d" ∨ emb.toLower = "3d"
  · cases hch : normalizeBC "bc_ch" bc_ch with
    | error e => simp [parseTubeArgs, he, hch]; tauto
    | ok v =>
      cases hct : normalizeBC "bc_t" bc_t with
      | error e => simp [parseTubeArgs, he, hch, hct]; tauto
      | ok w => simp [parseTubeArgs, he, hch, hct]; tauto
  · push_neg at he
    simp only [parseTubeArgs, if_neg (by tauto : ¬ (emb.toLower = "2d" ∨ emb.toLower = "3d"))]
    simp [he]

theorem runCLI_error_of_parse_error (n m len : ℕ) (bc_ch bc_t emb : String) (e : PyError)
    (h : parseTubeArgs bc_ch bc_t emb = .error e) :
    runCLI n m len bc_ch bc_t emb = .error e := by
  simp [runCLI, h]

/-- Counterexample to claim C2 as stated: in the programmatic
construction interface (`make_ribbon`), the shorthand token `"P"` is
not normalised before use: it changes the result relative to
`"periodic"` (it is silently treated as open). -/
theorem claim_C2_counterexample :
    makeRibbon 1 1 1 "P" "periodic" ≠ makeRibbon 1 1 1 "periodic" "periodic" :=
  of_decide_eq_true (by with_unfolding_all rfl)

/-- Claim C2 (amended): it is the command-line parsing layer
(`_parse_args`), not the programmatic construction interface, that
accepts `periodic`/`open` with the shorthands `p`/`o` case-insensitively
and normalises them to `periodic`/`open` before they are used, and that
reports any unrecognised boundary-condition or embedding token
immediately, before any generation work begins, with no partial
structure produced (`run` parses before constructing anything and an
error short-circuits generation). -/
theorem claim_C2 :
    (∀ which s, normalizeBC which s = .ok "periodic" ↔
       s.toLower = "p" ∨ s.toLower = "periodic") ∧
    (∀ which s, normalizeBC which s = .ok "open" ↔
       s.toLower = "o" ∨ s.toLower = "open") ∧
    (∀ which s r, normalizeBC which s = .ok r → r = "periodic" ∨ r = "open") ∧
    (∀ which s, (∃ e, normalizeBC which s = .error e) ↔
       s.toLower ≠ "p" ∧ s.toLower ≠ "periodic" ∧ s.toLower ≠ "o" ∧ s.toLower ≠ "open") ∧
    (∀ bc_ch bc_t emb, (∃ e, parseTubeArgs bc_ch bc_t emb = .error e) ↔
       (emb.toLower ≠ "2d" ∧ emb.toLower ≠ "3d") ∨
       (∃ e, normalizeBC "bc_ch" bc_ch = .error e) ∨
       (∃ e, normalizeBC "bc_t" bc_t = .error e)) ∧
    (∀ n m len bc_ch bc_t emb e, parseTubeArgs bc_ch bc_t emb = .error e →
       runCLI n m len bc_ch bc_t emb = .error e) :=
  ⟨normalizeBC_ok_periodic, normalizeBC_ok_open, normalizeBC_ok_shape,
   normalizeBC_error_iff, parseTubeArgs_error_iff, runCLI_error_of_parse_error⟩

/-- Witness for C2: `"P"` is normalised to `periodic` by the parsing
layer, and an unrecognised token makes the CLI fail before generation. -/
theorem claim_C2_witness :
    (normalizeBC "bc_ch" "P" = .ok "periodic" ↔
      "P".toLower = "p" ∨ "P".toLower = "periodic") ∧
    runCLI 1 1 1 "x" "periodic" "3d" =
      .error (.configError ("Unknown boundary condition for " ++ "bc_ch" ++ ": " ++ "x")) :=
  ⟨claim_C2.1 "bc_ch" "P",
   claim_C2.2.2.2.2.2 1 1 1 "x" "periodic" "3d" _ (by with_unfolding_all rfl)⟩

theorem resolveBond_congr (nuc luc i : ℕ) {b1 b1' b2 b2' : String}
    (h1 : b1 = "periodic" ↔ b1' = "periodic") (h2 : b2 = "periodic" ↔ b2' = "periodic") :
    resolveBond nuc luc i b1 b2 = resolveBond nuc luc i b1' b2' := by
  funext b
  by_cases c1 : b1 = "periodic"
  · have c1' : b1' = "periodic" := h1.1 c1
    by_cases c2 : b2 = "periodic"
    · have c2' := h2.1 c2
      simp [resolveBond, c1, c1', c2, c2']
    · have c2' : ¬ b2' = "periodic" := fun hh => c2 (h2.2 hh)
      simp [resolveBond, c1, c1', c2, c2']
  · have c1' : ¬ b1' = "periodic" := fun hh => c1 (h1.2 hh)
    by_cases c2 : b2 = "periodic"
    · have c2' := h2.1 c2
      simp [resolveBond, c1, c1', c2, c2']
    · have c2' : ¬ b2' = "periodic" := fun hh => c2 (h2.2 hh)
      simp [resolveBond, c1, c1', c2, c2']

theorem sowSite_congr (nuc luc i : ℕ) {b1 b1' b2 b2' : String}
    (h1 : b1 = "periodic" ↔ b1' = "periodic") (h2 : b2 = "periodic" ↔ b2' = "periodic")
    (s : Site) :
    sowSite nuc luc i b1 b2 s = sowSite nuc luc i b1' b2' s := by
  simp only [sowSite]
  rw [resolveBond_congr nuc luc i h1 h2]

theorem sowCellsAux_congr (nuc luc : ℕ) {b1 b1' b2 b2' : String}
    (h1 : b1 = "periodic" ↔ b1' = "periodic") (h2 : b2 = "periodic" ↔ b2' = "periodic")
    (j : ℕ) (l : List Site) :
    sowCellsAux nuc luc b1 b2 j l = sowCellsAux nuc luc b1' b2' j l := by
  induction l generalizing j with
  | nil => rfl
  | cons s rest ih =>
    simp only [sowCellsAux]
    rw [ih, sowSite_congr nuc luc _ h1 h2]

theorem makeRibbon_congr (n m nuc : ℕ) {b1 b1' b2 b2' : String}
    (h1 : b1 = "periodic" ↔ b1' = "periodic") (h2 : b2 = "periodic" ↔ b2' = "periodic") :
    makeRibbon n m nuc b1 b2 = makeRibbon n m nuc b1' b2' := by
  simp only [makeRibbon]
  cases makeUcell n m with
  | none => rfl
  | some ucell =>
    simp only [Option.map_some', sowCells]
    rw [sowCellsAux_congr nuc ucell.length h1 h2]

/-- Claim C10: the programmatic `make_ribbon` interface performs no
validation or normalisation of its boundary-condition arguments: any
string other than exactly `"periodic"` (including `"P"`, `"Periodic"`,
or any unrecognised token) behaves exactly like `"open"`, for the
circumferential and the axial argument independently, and no error is
raised (`makeRibbon` is total up to the symmetry-vector search, which
does not depend on the boundary conditions). -/
theorem claim_C10 (n m nuc : ℕ) (bc_ch bc_t : String) :
    (bc_ch ≠ "periodic" → makeRibbon n m nuc bc_ch bc_t = makeRibbon n m nuc "open" bc_t) ∧
    (bc_t ≠ "periodic" → makeRibbon n m nuc bc_ch bc_t = makeRibbon n m nuc bc_ch "open") := by
  constructor
  · intro h
    exact makeRibbon_congr n m nuc (iff_of_false h (by decide)) Iff.rfl
  · intro h
    exact makeRibbon_congr n m nuc Iff.rfl (iff_of_false h (by decide))

/-- Witness for C10: the unrecognised tokens `"P"` and `"Open"` behave
like `"open"`. -/
theorem claim_C10_witness :
    makeRibbon 1 1 1 "P" "Open" = makeRibbon 1 1 1 "open" "Open" ∧
    makeRibbon 1 1 1 "P" "Open" = makeRibbon 1 1 1 "P" "open" :=
  ⟨(claim_C10 1 1 1 "P" "Open").1 (by decide),
   (claim_C10 1 1 1 "P" "Open").2 (by decide)⟩

/-! ## Claim C3: bond resolution across unit-cell seams -/

theorem target_bound {neigh luc c n : ℕ} (h1 : neigh < luc) (hc : c < n) :
    neigh + c * luc < n * luc := by
  have h2 : (c+1) * luc ≤ n * luc := Nat.mul_le_mul_right luc hc
  calc neigh + c * luc < luc + c * luc := by omega
    _ = (c+1) * luc := by ring
    _ ≤ n * luc := h2

theorem emod_pred_lt (i n : ℕ) (hn : 0 < n) : (((i : ℤ) - 1) % (n : ℤ)).toNat < n := by
  have hne : (n : ℤ) ≠ 0 := by exact_mod_cast hn.ne'
  have h1 : (0:ℤ) ≤ ((i : ℤ) - 1) % (n : ℤ) := Int.emod_nonneg _ hne
  have h2 : ((i : ℤ) - 1) % (n : ℤ) < n := Int.emod_lt_of_pos _ (by exact_mod_cast hn)
  omega

/-- Claim C3: for every cell index `i < n_ucells` and every recorded
bond `(neigh, xch, xt)` with crossing flags in `{-1, 0, +1}` and
boundary conditions in `{periodic, open}`, the bond is dropped iff
(`xch ≠ 0` and the circumferential boundary is open) or (`xt = +1`,
the axial boundary is open and `i` is the last cell) or (`xt = -1`,
the axial boundary is open and `i` is the first cell); a kept bond
resolves to the neighbour's cell-local index plus `luc` times `i`
(`xt = 0`), `(i+1) mod n_ucells` (`xt = +1`) or `(i-1) mod n_ucells`
(`xt = -1`), and every resolved index lies in `[0, n_ucells*luc)`;
`_sow_cells` applies exactly this resolution to each recorded bond. -/
theorem claim_C3 (n_ucells luc i neigh : ℕ) (xch xt : ℤ) (bc_ch bc_t : String)
    (hi : i < n_ucells)
    (hch : bc_ch = "periodic" ∨ bc_ch = "open")
    (hct : bc_t = "periodic" ∨ bc_t = "open")
    (hx : xch = -1 ∨ xch = 0 ∨ xch = 1)
    (ht : xt = -1 ∨ xt = 0 ∨ xt = 1) :
    (resolveBond n_ucells luc i bc_ch bc_t (neigh, xch, xt) = none ↔
      (xch ≠ 0 ∧ bc_ch = "open") ∨
      (xt = 1 ∧ bc_t = "open" ∧ i = n_ucells - 1) ∨
      (xt = -1 ∧ bc_t = "open" ∧ i = 0)) ∧
    (∀ tgt, resolveBond n_ucells luc i bc_ch bc_t (neigh, xch, xt) = some tgt →
      tgt = neigh + (if xt = 0 then i
                     else if xt = 1 then (i + 1) % n_ucells
                     else (((i : ℤ) - 1) % (n_ucells : ℤ)).toNat) * luc ∧
      (neigh < luc → tgt < n_ucells * luc)) ∧
    (∀ site : Site,
      (sowSite n_ucells luc i bc_ch bc_t site).neighbours =
        (site.neighbours.zip (site.cross_ch.zip site.cross_t)).filterMap
          (resolveBond n_ucells luc i bc_ch bc_t)) := by
  have hn : 0 < n_ucells := by omega
  have hop : ("periodic" : String) ≠ "open" := by decide
  refine ⟨?_, ?_, fun site => rfl⟩
  · -- the drop condition
    simp only [resolveBond]
    split_ifs with h1 h2 h3 h4
    · refine iff_of_false (by simp) ?_
      rintro (⟨hxch, hbc⟩ | ⟨hxt, -, -⟩ | ⟨hxt, -, -⟩)
      · rcases h1 with h0 | hper
        · exact hxch h0
        · subst hper; exact hop hbc
      · omega
      · omega
    · refine iff_of_false (by simp) ?_
      rintro (⟨hxch, hbc⟩ | ⟨hxt, hbt, hlast⟩ | ⟨hxt, -, -⟩)
      · rcases h1 with h0 | hper
        · exact hxch h0
        · subst hper; exact hop hbc
      · rcases h3.2 with hbtp | hne
        · subst hbt; exact hop hbtp.symm
        · exact hne hlast
      · omega
    · refine iff_of_false (by simp) ?_
      rintro (⟨hxch, hbc⟩ | ⟨hxt, -, -⟩ | ⟨hxt, hbt, hfirst⟩)
      · rcases h1 with h0 | hper
        · exact hxch h0
        · subst hper; exact hop hbc
      · omega
      · rcases h4.2 with hbtp | hne
        · subst hbt; exact hop hbtp.symm
        · exact hne hfirst
    · refine iff_of_true rfl ?_
      rcases ht with hneg | h0 | hpos
      · refine Or.inr (Or.inr ⟨hneg, ?_, ?_⟩)
        · rcases hct with hbt | hbt
          · exact absurd ⟨hneg, Or.inl hbt⟩ h4
          · exact hbt
        · by_contra hne
          exact h4 ⟨hneg, Or.inr hne⟩
      · exact absurd h0 h2
      · refine Or.inr (Or.inl ⟨hpos, ?_, ?_⟩)
        · rcases hct with hbt | hbt
          · exact absurd ⟨hpos, Or.inl hbt⟩ h3
          · exact hbt
        · by_contra hne
          exact h3 ⟨hpos, Or.inr hne⟩
    · refine iff_of_true rfl (Or.inl ⟨?_, ?_⟩)
      · intro h0
        exact h1 (Or.inl h0)
      · rcases hch with hbc | hbc
        · exact absurd (Or.inr hbc) h1
        · exact hbc
  · -- the resolved target and its range
    intro tgt htgt
    simp only [resolveBond] at htgt
    split_ifs at htgt with h1 h2 h3 h4
    · obtain rfl := Option.some.inj htgt
      refine ⟨by rw [if_pos h2], fun h => target_bound h hi⟩
    · obtain rfl := Option.some.inj htgt
      refine ⟨?_, fun h => target_bound h (Nat.mod_lt _ hn)⟩
      rw [if_neg (by omega), if_pos h3.1]
    · obtain rfl := Option.some.inj htgt
      refine ⟨?_, fun h => target_bound h (emod_pred_lt i n_ucells hn)⟩
      rw [if_neg (by omega), if_neg (by omega)]

/-- Witness for C3: cell 0 of a two-cell ribbon, an in-cell bond
(`xch = 0`, `xt = 0`) to local neighbour 3 under fully periodic
boundary conditions. -/
theorem claim_C3_witness :
    (resolveBond 2 4 0 "periodic" "periodic" (3, 0, 0) = none ↔
      ((0:ℤ) ≠ 0 ∧ ("periodic":String) = "open") ∨
      ((0:ℤ) = 1 ∧ ("periodic":String) = "open" ∧ 0 = 2 - 1) ∨
      ((0:ℤ) = -1 ∧ ("periodic":String) = "open" ∧ 0 = 0)) ∧
    (∀ tgt, resolveBond 2 4 0 "periodic" "periodic" (3, 0, 0) = some tgt →
      tgt = 3 + (if (0:ℤ) = 0 then 0
                 else if (0:ℤ) = 1 then (0 + 1) % 2
                 else ((((0:ℕ) : ℤ) - 1) % ((2:ℕ) : ℤ)).toNat) * 4 ∧
      (3 < 4 → tgt < 2 * 4)) ∧
    (∀ site : Site,
      (sowSite 2 4 0 "periodic" "periodic" site).neighbours =
        (site.neighbours.zip (site.cross_ch.zip site.cross_t)).filterMap
          (resolveBond 2 4 0 "periodic" "periodic")) := by
  exact claim_C3 2 4 0 3 0 0 "periodic" "periodic" (by omega) (Or.inl rfl) (Or.inl rfl)
    (Or.inr (Or.inl rfl)) (Or.inr (Or.inl rfl))

/-! ## Claims C4 and C5: the symmetry-vector search -/

theorem findSome?_range'_spec {β : Type} (f : ℕ → Option β) (b : β) :
    ∀ (a len : ℕ), (List.range' a len).findSome? f = some b →
      ∃ p, a ≤ p ∧ p < a + len ∧ f p = some b ∧ ∀ r, a ≤ r → r < p → f r = none := by
  intro a len
  induction len generalizing a with
  | zero => intro h; simp [List.range'] at h
  | succ k ih =>
    intro h
    rw [List.range'_succ] at h
    cases hfa : f a with
    | some b' =>
      simp only [List.findSome?_cons, hfa] at h
      obtain rfl := Option.some.inj h
      exact ⟨a, le_refl a, by omega, hfa, fun r hr1 hr2 => absurd hr1 (by omega)⟩
    | none =>
      simp only [List.findSome?_cons, hfa] at h
      obtain ⟨p, hp1, hp2, hp3, hp4⟩ := ih (a+1) h
      refine ⟨p, by omega, by omega, hp3, fun r hr1 hr2 => ?_⟩
      rcases Nat.eq_or_lt_of_le hr1 with rfl | hlt
      · exact hfa
      · exact hp4 r (by omega) hr2

theorem symVecPQ_eq_none_iff (n m : ℕ) :
    symVecPQ n m = none ↔ ∀ p : ℕ, 1 ≤ p → p ≤ n_atoms_ucell n m →
      ¬ (t1Z n m ∣ (1 + (p : ℤ) * t2Z n m)) := by
  rw [symVecPQ, List.findSome?_eq_none_iff]
  constructor
  · intro h p h1 h2 hd
    have := h p (List.mem_range'_1.2 ⟨h1, by omega⟩)
    rw [if_pos hd] at this
    cases this
  · intro h pp hpp
    obtain ⟨h1, h2⟩ := List.mem_range'_1.1 hpp
    rw [if_neg (h pp h1 (by omega))]

theorem symVecPQ_some_spec (n m : ℕ) (p q : ℤ) (h : symVecPQ n m = some (p, q)) :
    ∃ pn : ℕ, (pn : ℤ) = p ∧ 1 ≤ pn ∧ pn ≤ n_atoms_ucell n m ∧
      t1Z n m ∣ (1 + p * t2Z n m) ∧ q = (1 + p * t2Z n m) / t1Z n m ∧
      ∀ r : ℕ, 1 ≤ r → r < pn → ¬ (t1Z n m ∣ (1 + (r : ℤ) * t2Z n m)) := by
  obtain ⟨pn, h1, h2, h3, h4⟩ := findSome?_range'_spec _ _ 1 (n_atoms_ucell n m) h
  by_cases hd : t1Z n m ∣ (1 + (pn : ℤ) * t2Z n m)
  · rw [if_pos hd] at h3
    obtain ⟨hp, hq⟩ := Prod.mk.injEq .. ▸ Option.some.inj h3
    refine ⟨pn, hp, h1, by omega, hp ▸ hd, (hp ▸ hq).symm, fun r hr1 hr2 hdd => ?_⟩
    have hnone := h4 r hr1 hr2
    rw [if_pos hdd] at hnone
    cases hnone
  · rw [if_neg hd] at h3
    cases h3

/-- Claim C5: whenever `symmetry_vector` returns, it returns
`p*a1 + q*a2` where `p` is the smallest positive integer in the
searched range making `q = (1 + p*t2)/t1` an integer, and the pair
satisfies the Bézout identity `t1*q - t2*p = 1` exactly (hence within
any floating tolerance), `(t1, t2)` being the lattice-basis translation
vector. -/
theorem claim_C5 (n m : ℕ) (p q : ℤ) (h : symVecPQ n m = some (p, q)) :
    (∀ s : ℝ, symmetry_vector n m s = some ((p : ℝ) • a1R s + (q : ℝ) • a2R s)) ∧
    1 ≤ p ∧ p ≤ (n_atoms_ucell n m : ℤ) ∧
    t1Z n m ∣ (1 + p * t2Z n m) ∧
    q = (1 + p * t2Z n m) / t1Z n m ∧
    t1Z n m * q - t2Z n m * p = 1 ∧
    (∀ r : ℕ, 1 ≤ r → (r : ℤ) < p → ¬ (t1Z n m ∣ (1 + (r : ℤ) * t2Z n m))) := by
  obtain ⟨pn, hpn, h1, h2, hd, hq, hmin⟩ := symVecPQ_some_spec n m p q h
  have hbez : t1Z n m * q - t2Z n m * p = 1 := by
    have := Int.mul_ediv_cancel' hd
    rw [hq]
    linarith
  refine ⟨fun s => by simp [symmetry_vector, h], by omega, by omega, hd, hq, hbez,
    fun r hr1 hr2 => hmin r hr1 (by omega)⟩

/-- Witness for C5 at chirality `(1, 1)`: the search returns
`(p, q) = (1, 0)`. -/
theorem claim_C5_witness :
    symVecPQ 1 1 = some (1, 0) ∧
    ((∀ s : ℝ, symmetry_vector 1 1 s = some (((1:ℤ) : ℝ) • a1R s + ((0:ℤ) : ℝ) • a2R s)) ∧
     1 ≤ (1:ℤ) ∧ (1:ℤ) ≤ (n_atoms_ucell 1 1 : ℤ) ∧
     t1Z 1 1 ∣ (1 + 1 * t2Z 1 1) ∧
     (0:ℤ) = (1 + 1 * t2Z 1 1) / t1Z 1 1 ∧
     t1Z 1 1 * 0 - t2Z 1 1 * 1 = 1 ∧
     (∀ r : ℕ, 1 ≤ r → (r : ℤ) < 1 → ¬ (t1Z 1 1 ∣ (1 + (r : ℤ) * t2Z 1 1)))) :=
  ⟨by decide, claim_C5 1 1 1 0 (by decide)⟩

theorem t1N_mul_dR (n m : ℕ) : (2*m+n) / dR n m * dR n m = 2*m+n :=
  Nat.div_mul_cancel (Nat.gcd_dvd_left _ _)

theorem t1Z_pos (n m : ℕ) (hn : 1 ≤ n) : 0 < t1Z n m := by
  have h1 : 0 < (2*m+n) / dR n m :=
    Nat.div_pos (Nat.le_of_dvd (by omega) (Nat.gcd_dvd_left _ _)) (dR_pos n m hn)
  simp only [t1Z]
  exact_mod_cast h1

theorem coprime_t1_t2 (n m : ℕ) (hn : 1 ≤ n) : IsCoprime (t1Z n m) (t2Z n m) := by
  rw [Int.isCoprime_iff_gcd_eq_one]
  simp only [t1Z, t2Z, Int.gcd, Int.natAbs_neg, Int.natAbs_ofNat]
  exact Nat.coprime_div_gcd_div_gcd (dR_pos n m hn)

theorem t1N_le_n_atoms (n m : ℕ) (hm : m ≤ n) (hn : 1 ≤ n) :
    (2*m+n) / dR n m ≤ n_atoms_ucell n m := by
  have hd := dR_pos n m hn
  have hnn : n ≤ n*n := Nat.le_mul_of_pos_left n hn
  have key : 2*m+n ≤ 4 * gN n m := by
    simp only [gN]
    omega
  have h1 : (2*m+n) / dR n m * dR n m ≤ n_atoms_ucell n m * dR n m := by
    rw [t1N_mul_dR, n_atoms_mul_dR]
    exact key
  exact Nat.le_of_mul_le_mul_right h1 hd

theorem symVec_exists (n m : ℕ) (hm : m ≤ n) (hn : 1 ≤ n) : symVecPQ n m ≠ none := by
  intro hnone
  rw [symVecPQ_eq_none_iff] at hnone
  obtain ⟨u, v, huv⟩ := coprime_t1_t2 n m hn
  have ht1pos : 0 < t1Z n m := t1Z_pos n m hn
  have hpz0 : 0 ≤ (-v) % t1Z n m := Int.emod_nonneg _ ht1pos.ne'
  have hpzlt : (-v) % t1Z n m < t1Z n m := Int.emod_lt_of_pos _ ht1pos
  have hdvd_pv : t1Z n m ∣ ((-v) % t1Z n m) + v := by
    have hdc := Int.emod_add_ediv (-v) (t1Z n m)
    exact ⟨-((-v) / t1Z n m), by linarith⟩
  set p : ℤ := if (-v) % t1Z n m = 0 then t1Z n m else (-v) % t1Z n m with hp
  have hp1 : 1 ≤ p := by rw [hp]; split_ifs with h <;> omega
  have hple : p ≤ t1Z n m := by rw [hp]; split_ifs <;> omega
  have hpv : t1Z n m ∣ p + v := by
    rw [hp]; split_ifs with h
    · have hv : t1Z n m ∣ v := by
        have := hdvd_pv
        rw [h] at this
        simpa using this
      exact dvd_add dvd_rfl hv
    · exact hdvd_pv
  have hdvd : t1Z n m ∣ (1 + p * t2Z n m) := by
    have key : 1 + p * t2Z n m = u * t1Z n m + (p + v) * t2Z n m := by linarith
    rw [key]
    exact dvd_add (dvd_mul_left _ u) (hpv.mul_right _)
  have hton : ((p.toNat : ℤ)) = p := by omega
  have ht1le : t1Z n m ≤ (n_atoms_ucell n m : ℤ) := by
    have := t1N_le_n_atoms n m hm hn
    simp only [t1Z]
    exact_mod_cast this
  refine hnone p.toNat (by omega) (by omega) ?_
  rw [hton]
  exact hdvd

/-- Claim C4: `symmetry_vector` searches `p` over exactly
`1 .. n_atoms_ucell()` inclusive and fails iff no `p` in that range
makes `q = (1 + p*t2)/t1` an integer; for every valid chirality
(`n ≥ m ≥ 0`, not both zero, translation vector reduced to coprime form
by the gcd construction) the failure branch is unreachable. -/
theorem claim_C4 (n m : ℕ) (hm : m ≤ n) (hn : 1 ≤ n) :
    (symVecPQ n m = none ↔ ∀ p : ℕ, 1 ≤ p → p ≤ n_atoms_ucell n m →
      ¬ (t1Z n m ∣ (1 + (p : ℤ) * t2Z n m))) ∧
    symVecPQ n m ≠ none :=
  ⟨symVecPQ_eq_none_iff n m, symVec_exists n m hm hn⟩

/-- Witness for C4 at chirality `(2, 1)`. -/
theorem claim_C4_witness :
    ((symVecPQ 2 1 = none ↔ ∀ p : ℕ, 1 ≤ p → p ≤ n_atoms_ucell 2 1 →
       ¬ (t1Z 2 1 ∣ (1 + (p : ℤ) * t2Z 2 1))) ∧
     symVecPQ 2 1 ≠ none) :=
  claim_C4 2 1 (by omega) (by omega)

/-! ## Claim C7: the cylindrical embedding -/

theorem dist_axis (r x : ℝ) (hr : 0 ≤ r) :
    Real.sqrt ((r * Real.cos x)^2 + (r * Real.sin x)^2) = r := by
  have key : (r * Real.cos x)^2 + (r * Real.sin x)^2 = r^2 := by
    calc (r * Real.cos x)^2 + (r * Real.sin x)^2
        = r^2 * (Real.cos x ^ 2 + Real.sin x ^ 2) := by ring
      _ = r^2 := by rw [Real.cos_sq_add_sin_sq]; ring
  rw [key, Real.sqrt_sq hr]

theorem diameter_nonneg (n m : ℕ) (s : ℝ) : 0 ≤ diameter n m s :=
  div_nonneg (Real.sqrt_nonneg _) Real.pi_pos.le

/-- Claim C7: `roll_tube` maps every ribbon site to a new `Site` record
(the embedding is a pure map producing fresh records, so the input
ribbon is unchanged) whose 3-D position is
`(radius*cos φ, radius*sin φ, z)` with `radius = diameter()/2`,
`φ = (2π/circumference)` times the 2-D position projected onto the unit
chiral direction and `z` the projection onto the unit translation
direction, so that every embedded position lies at Euclidean distance
`diameter()/2` from the tube's central axis, while `idx`, `neighbours`
and `hopping` are copied unchanged. -/
theorem claim_C7 (n m : ℕ) (s : ℝ) (ribbon : List Site) (site : Site) :
    rollTube n m s ribbon = ribbon.map (rollSite n m s) ∧
    (rollSite n m s site).idx = site.idx ∧
    (rollSite n m s site).neighbours = site.neighbours ∧
    (rollSite n m s site).hopping = site.hopping ∧
    (rollSite n m s site).pos =
      (diameter n m s / 2 *
         Real.cos (2 * Real.pi / circumference n m s *
           dot2 (realPos n m s site.pos)
             ((norm2 (chiral_vector n m s))⁻¹ • chiral_vector n m s)),
       diameter n m s / 2 *
         Real.sin (2 * Real.pi / circumference n m s *
           dot2 (realPos n m s site.pos)
             ((norm2 (chiral_vector n m s))⁻¹ • chiral_vector n m s)),
       dot2 (realPos n m s site.pos)
         ((norm2 (translation_vector n m s))⁻¹ • translation_vector n m s)) ∧
    Real.sqrt ((rollSite n m s site).pos.1 ^ 2 + (rollSite n m s site).pos.2.1 ^ 2) =
      diameter n m s / 2 := by
  have hr : 0 ≤ diameter n m s / 2 := by
    have := diameter_nonneg n m s
    linarith
  exact ⟨rfl, rfl, rfl, rfl, rfl, dist_axis _ _ hr⟩

/-! ## Claim C8: exact arithmetic identities for the coverage proof -/

theorem t1Z_mul_dR (n m : ℕ) : t1Z n m * (dR n m : ℤ) = ((2*m+n : ℕ) : ℤ) := by
  simp only [t1Z]
  exact_mod_cast t1N_mul_dR n m

theorem t2Z_mul_dR (n m : ℕ) : t2Z n m * (dR n m : ℤ) = -((2*n+m : ℕ) : ℤ) := by
  simp only [t2Z]
  have h : (2*n+m) / dR n m * dR n m = 2*n+m := Nat.div_mul_cancel (Nat.gcd_dvd_right _ _)
  push_cast
  nlinarith [h]

theorem hZ_mul_dR_sq (n m : ℕ) : hZ n m * (dR n m : ℤ)^2 = 3 * (gN n m : ℤ) := by
  have e1 := t1Z_mul_dR n m
  have e2 := t2Z_mul_dR n m
  have key : hZ n m * (dR n m : ℤ)^2 =
      (t1Z n m * dR n m) * (t1Z n m * dR n m) +
      (t1Z n m * dR n m) * (t2Z n m * dR n m) +
      (t2Z n m * dR n m) * (t2Z n m * dR n m) := by
    simp only [hZ]; ring
  rw [key, e1, e2]
  simp only [gN]
  push_cast
  ring

theorem gN_pos (n m : ℕ) (hn : 1 ≤ n) : 0 < gN n m := by
  simp only [gN]
  nlinarith

theorem hZ_pos (n m : ℕ) (hn : 1 ≤ n) : 0 < hZ n m := by
  have h3 := hZ_mul_dR_sq n m
  have hg : (0:ℤ) < (gN n m : ℤ) := by exact_mod_cast gN_pos n m hn
  have hd : (0:ℤ) < (dR n m : ℤ) := by exact_mod_cast dR_pos n m hn
  nlinarith

theorem t2Z_neg (n m : ℕ) (hn : 1 ≤ n) : t2Z n m < 0 := by
  have h1 : 0 < (2*n+m) / dR n m :=
    Nat.div_pos (Nat.le_of_dvd (by omega) (Nat.gcd_dvd_right _ _)) (dR_pos n m hn)
  simp only [t2Z]
  omega

theorem n_hex_pos (n m : ℕ) (hn : 1 ≤ n) : 0 < n_hex_ucell n m := by
  rcases Nat.eq_zero_or_pos (n_hex_ucell n m) with h | h
  · exfalso
    have := n_hex_mul_dR n m
    rw [h] at this
    have := gN_pos n m hn
    omega
  · exact h

theorem dR_le_A (n m : ℕ) (hn : 1 ≤ n) : dR n m ≤ 2*m+n :=
  Nat.le_of_dvd (by omega) (Nat.gcd_dvd_left _ _)

theorem dR_le_B (n m : ℕ) (hn : 1 ≤ n) : dR n m ≤ 2*n+m :=
  Nat.le_of_dvd (by omega) (Nat.gcd_dvd_right _ _)

/-- `(2n+m)*t1 + (n+2m)*t2 = 0`: the chiral and translation directions
are orthogonal. -/
theorem ortho_Z (n m : ℕ) (hn : 1 ≤ n) :
    ((2*n+m : ℕ) : ℤ) * t1Z n m + ((n+2*m : ℕ) : ℤ) * t2Z n m = 0 := by
  have e1 := t1Z_mul_dR n m
  have e2 := t2Z_mul_dR n m
  have hd : (0:ℤ) < (dR n m : ℤ) := by exact_mod_cast dR_pos n m hn
  have key : (((2*n+m : ℕ) : ℤ) * t1Z n m + ((n+2*m : ℕ) : ℤ) * t2Z n m) * (dR n m : ℤ) =
      ((2*n+m : ℕ) : ℤ) * (t1Z n m * dR n m) + ((n+2*m : ℕ) : ℤ) * (t2Z n m * dR n m) := by
    ring
  have key2 : (((2*n+m : ℕ) : ℤ) * t1Z n m + ((n+2*m : ℕ) : ℤ) * t2Z n m) * (dR n m : ℤ) = 0 := by
    rw [key, e1, e2]
    push_cast
    ring
  exact (mul_eq_zero.1 key2).resolve_right (by omega)

/-- `n_hex_ucell` as the determinant `m*t1 - n*t2` of the basis change. -/
theorem n_hex_eq_det (n m : ℕ) (hn : 1 ≤ n) :
    (n_hex_ucell n m : ℤ) = (m : ℤ) * t1Z n m - (n : ℤ) * t2Z n m := by
  have e1 := t1Z_mul_dR n m
  have e2 := t2Z_mul_dR n m
  have hd : (0:ℤ) < (dR n m : ℤ) := by exact_mod_cast dR_pos n m hn
  have hmul := n_hex_mul_dR n m
  have key : ((n_hex_ucell n m : ℤ) - ((m : ℤ) * t1Z n m - (n : ℤ) * t2Z n m)) * (dR n m : ℤ)
      = 0 := by
    have lhs1 : (n_hex_ucell n m : ℤ) * (dR n m : ℤ) = 2 * (gN n m : ℤ) := by
      exact_mod_cast hmul
    have expand : ((n_hex_ucell n m : ℤ) - ((m : ℤ) * t1Z n m - (n : ℤ) * t2Z n m)) *
        (dR n m : ℤ) =
        (n_hex_ucell n m : ℤ) * (dR n m : ℤ) - (m : ℤ) * (t1Z n m * dR n m)
          + (n : ℤ) * (t2Z n m * dR n m) := by ring
    rw [expand, lhs1, e1, e2]
    simp only [gN]
    push_cast
    ring
  have := (mul_eq_zero.1 key).resolve_right (by omega)
  omega

/-! ## Claim C8: frame coordinates of lattice vectors -/

/-- A vector that is an integer combination `u*(n,m) + v*(t1,t2)` of the
chiral and the translation lattice vector has frame coordinates
`(u, v)`. -/
theorem frame_of_decomp (n m : ℕ) (hn : 1 ≤ n) (w1 w2 : ℚ) (u v : ℤ)
    (h1 : w1 = (u : ℚ) * n + (v : ℚ) * t1Z n m)
    (h2 : w2 = (u : ℚ) * m + (v : ℚ) * t2Z n m) :
    frame n m (w1, w2) = ((u : ℚ), (v : ℚ)) := by
  have hg : (0:ℚ) < (gN n m : ℚ) := by exact_mod_cast gN_pos n m hn
  have hh : (0:ℚ) < (hZ n m : ℚ) := by exact_mod_cast hZ_pos n m hn
  have hZ1 : ((2*n+m : ℕ) : ℚ) * ((t1Z n m : ℤ) : ℚ) + ((n+2*m : ℕ) : ℚ) * ((t2Z n m : ℤ) : ℚ)
      = 0 := by exact_mod_cast congrArg (fun z : ℤ => (z : ℚ)) (ortho_Z n m hn)
  refine Prod.ext ?_ ?_
  · show (((2*n+m : ℕ) : ℚ) * w1 + ((n+2*m : ℕ) : ℚ) * w2) / (2 * (gN n m : ℚ)) = (u : ℚ)
    rw [h1, h2, div_eq_iff (by linarith)]
    simp only [gN] at *
    push_cast at *
    linear_combination (v : ℚ) * hZ1
  · show (((2 * t1Z n m + t2Z n m : ℤ) : ℚ) * w1 + ((t1Z n m + 2 * t2Z n m : ℤ) : ℚ) * w2) /
        (2 * (hZ n m : ℚ)) = (v : ℚ)
    rw [h1, h2, div_eq_iff (by linarith)]
    simp only [hZ] at *
    push_cast at *
    linear_combination (u : ℚ) * hZ1

theorem shift0_fst (n m : ℕ) : (shift0 n m).1 = ((n : ℚ) + m) / (2 * (gN n m : ℚ)) := by
  simp only [shift0, frame]
  push_cast
  ring

theorem shift0_snd (n m : ℕ) :
    (shift0 n m).2 = (((t1Z n m : ℤ) : ℚ) + ((t2Z n m : ℤ) : ℚ)) / (2 * (hZ n m : ℚ)) := by
  simp only [shift0, frame]
  push_cast
  ring

theorem shift1_fst (n m : ℕ) : (shift1 n m).1 = -(n : ℚ) / (2 * (gN n m : ℚ)) := by
  simp only [shift1, shift0, frame, Prod.mk_sub_mk]
  push_cast
  ring

theorem shift1_snd (n m : ℕ) :
    (shift1 n m).2 = -((t1Z n m : ℤ) : ℚ) / (2 * (hZ n m : ℚ)) := by
  simp only [shift1, shift0, frame, Prod.mk_sub_mk]
  push_cast
  ring

theorem shift2_fst (n m : ℕ) : (shift2 n m).1 = -(m : ℚ) / (2 * (gN n m : ℚ)) := by
  simp only [shift2, shift0, frame, Prod.mk_sub_mk]
  push_cast
  ring

theorem shift2_snd (n m : ℕ) :
    (shift2 n m).2 = -((t2Z n m : ℤ) : ℚ) / (2 * (hZ n m : ℚ)) := by
  simp only [shift2, shift0, frame, Prod.mk_sub_mk]
  push_cast
  ring

/-! ## Claim C8: the six shift-coordinate bounds -/

theorem abs_div_lt_one_of (a c : ℚ) (hc : 0 < c) (h : |a| < c) : |a / c| < 1 := by
  rw [abs_div, abs_of_pos hc, div_lt_one hc]
  exact h

theorem abs_t1t2_lt (n m : ℕ) (hm : m ≤ n) (hn : 1 ≤ n) :
    |t1Z n m + t2Z n m| < 2 * hZ n m := by
  have hd : (0:ℤ) < (dR n m : ℤ) := by exact_mod_cast dR_pos n m hn
  have e1 := t1Z_mul_dR n m
  have e2 := t2Z_mul_dR n m
  have e3 := hZ_mul_dR_sq n m
  have hmz : ((m:ℤ)) ≤ (n:ℤ) := by exact_mod_cast hm
  have hsum : (t1Z n m + t2Z n m) * (dR n m : ℤ) = (m:ℤ) - n := by
    rw [add_mul, e1, e2]; push_cast; ring
  have habs : |t1Z n m + t2Z n m| * (dR n m:ℤ) = (n:ℤ) - m := by
    have h0 : |(t1Z n m + t2Z n m) * (dR n m:ℤ)| = |(m:ℤ) - n| := by rw [hsum]
    rw [abs_mul, abs_of_pos hd] at h0
    rw [h0, abs_of_nonpos (by omega)]
    ring
  have hdle : (dR n m : ℤ) ≤ ((2*n+m : ℕ) : ℤ) := by exact_mod_cast dR_le_B n m hn
  have key : |t1Z n m + t2Z n m| * (dR n m:ℤ)^2 < 2 * hZ n m * (dR n m:ℤ)^2 := by
    have lhs_eq : |t1Z n m + t2Z n m| * (dR n m:ℤ)^2 = ((n:ℤ) - m) * (dR n m:ℤ) := by
      rw [pow_two, ← mul_assoc, habs]
    have rhs_eq : 2 * hZ n m * (dR n m:ℤ)^2 = 6 * (gN n m:ℤ) := by
      calc 2 * hZ n m * (dR n m:ℤ)^2 = 2 * (hZ n m * (dR n m:ℤ)^2) := by ring
        _ = 6 * (gN n m:ℤ) := by rw [e3]; ring
    rw [lhs_eq, rhs_eq]
    have h1 : ((n:ℤ) - m) * (dR n m:ℤ) ≤ ((n:ℤ) - m) * ((2*n+m : ℕ) : ℤ) :=
      mul_le_mul_of_nonneg_left hdle (by omega)
    have h2 : ((n:ℤ) - m) * ((2*n+m:ℕ):ℤ) < 6 * (gN n m:ℤ) := by
      simp only [gN]
      have hn' : (1:ℤ) ≤ (n:ℤ) := by exact_mod_cast hn
      push_cast
      nlinarith
    linarith
  have hd2 : (0:ℤ) < (dR n m:ℤ)^2 := by positivity
  exact lt_of_mul_lt_mul_right key hd2.le

theorem abs_t1_lt (n m : ℕ) (hn : 1 ≤ n) : |t1Z n m| < 2 * hZ n m := by
  have hd : (0:ℤ) < (dR n m : ℤ) := by exact_mod_cast dR_pos n m hn
  have e1 := t1Z_mul_dR n m
  have e3 := hZ_mul_dR_sq n m
  have ht1 : 0 < t1Z n m := t1Z_pos n m hn
  have hdle : (dR n m : ℤ) ≤ ((2*m+n : ℕ) : ℤ) := by exact_mod_cast dR_le_A n m hn
  have key : |t1Z n m| * (dR n m:ℤ)^2 < 2 * hZ n m * (dR n m:ℤ)^2 := by
    have lhs_eq : |t1Z n m| * (dR n m:ℤ)^2 = ((2*m+n : ℕ) : ℤ) * (dR n m:ℤ) := by
      rw [abs_of_pos ht1, pow_two, ← mul_assoc, e1]
    have rhs_eq : 2 * hZ n m * (dR n m:ℤ)^2 = 6 * (gN n m:ℤ) := by
      calc 2 * hZ n m * (dR n m:ℤ)^2 = 2 * (hZ n m * (dR n m:ℤ)^2) := by ring
        _ = 6 * (gN n m:ℤ) := by rw [e3]; ring
    rw [lhs_eq, rhs_eq]
    have h1 : ((2*m+n:ℕ):ℤ) * (dR n m:ℤ) ≤ ((2*m+n:ℕ):ℤ) * ((2*m+n:ℕ):ℤ) :=
      mul_le_mul_of_nonneg_left hdle (by positivity)
    have h2 : ((2*m+n:ℕ):ℤ) * ((2*m+n:ℕ):ℤ) < 6 * (gN n m:ℤ) := by
      simp only [gN]
      have hn' : (1:ℤ) ≤ (n:ℤ) := by exact_mod_cast hn
      push_cast
      nlinarith
    linarith
  have hd2 : (0:ℤ) < (dR n m:ℤ)^2 := by positivity
  exact lt_of_mul_lt_mul_right key hd2.le

theorem abs_t2_lt (n m : ℕ) (hn : 1 ≤ n) : |t2Z n m| < 2 * hZ n m := by
  have hd : (0:ℤ) < (dR n m : ℤ) := by exact_mod_cast dR_pos n m hn
  have e2 := t2Z_mul_dR n m
  have e3 := hZ_mul_dR_sq n m
  have ht2 : t2Z n m < 0 := t2Z_neg n m hn
  have hdle : (dR n m : ℤ) ≤ ((2*m+n : ℕ) : ℤ) := by exact_mod_cast dR_le_A n m hn
  have key : |t2Z n m| * (dR n m:ℤ)^2 < 2 * hZ n m * (dR n m:ℤ)^2 := by
    have lhs_eq : |t2Z n m| * (dR n m:ℤ)^2 = ((2*n+m : ℕ) : ℤ) * (dR n m:ℤ) := by
      rw [abs_of_neg ht2, pow_two]
      have : -t2Z n m * ((dR n m:ℤ) * (dR n m:ℤ)) = -(t2Z n m * (dR n m:ℤ)) * (dR n m:ℤ) := by
        ring
      rw [this, e2]
      ring
    have rhs_eq : 2 * hZ n m * (dR n m:ℤ)^2 = 6 * (gN n m:ℤ) := by
      calc 2 * hZ n m * (dR n m:ℤ)^2 = 2 * (hZ n m * (dR n m:ℤ)^2) := by ring
        _ = 6 * (gN n m:ℤ) := by rw [e3]; ring
    rw [lhs_eq, rhs_eq]
    have h1 : ((2*n+m:ℕ):ℤ) * (dR n m:ℤ) ≤ ((2*n+m:ℕ):ℤ) * ((2*m+n:ℕ):ℤ) :=
      mul_le_mul_of_nonneg_left hdle (by positivity)
    have h2 : ((2*n+m:ℕ):ℤ) * ((2*m+n:ℕ):ℤ) < 6 * (gN n m:ℤ) := by
      simp only [gN]
      have hn' : (1:ℤ) ≤ (n:ℤ) := by exact_mod_cast hn
      push_cast
      nlinarith
    linarith
  have hd2 : (0:ℤ) < (dR n m:ℤ)^2 := by positivity
  exact lt_of_mul_lt_mul_right key hd2.le

theorem two_gN_pos_q (n m : ℕ) (hn : 1 ≤ n) : (0:ℚ) < 2 * (gN n m : ℚ) := by
  have : (0:ℚ) < (gN n m : ℚ) := by exact_mod_cast gN_pos n m hn
  linarith

theorem two_hZ_pos_q (n m : ℕ) (hn : 1 ≤ n) : (0:ℚ) < 2 * (hZ n m : ℚ) := by
  have : (0:ℚ) < ((hZ n m : ℤ) : ℚ) := by exact_mod_cast hZ_pos n m hn
  linarith

theorem bound_sh0_fst (n m : ℕ) (hm : m ≤ n) (hn : 1 ≤ n) : |(shift0 n m).1| < 1 := by
  rw [shift0_fst]
  refine abs_div_lt_one_of _ _ (two_gN_pos_q n m hn) ?_
  rw [abs_of_nonneg (by positivity)]
  have : n + m < 2 * gN n m := by simp only [gN]; nlinarith
  exact_mod_cast this

theorem bound_sh0_snd (n m : ℕ) (hm : m ≤ n) (hn : 1 ≤ n) : |(shift0 n m).2| < 1 := by
  rw [shift0_snd]
  refine abs_div_lt_one_of _ _ (two_hZ_pos_q n m hn) ?_
  have h := abs_t1t2_lt n m hm hn
  have hcast : ((t1Z n m : ℤ) : ℚ) + ((t2Z n m : ℤ) : ℚ) = ((t1Z n m + t2Z n m : ℤ) : ℚ) := by
    push_cast
    ring
  rw [hcast, ← Int.cast_abs]
  exact_mod_cast h

theorem bound_sh1_fst (n m : ℕ) (hn : 1 ≤ n) : |(shift1 n m).1| < 1 := by
  rw [shift1_fst]
  refine abs_div_lt_one_of _ _ (two_gN_pos_q n m hn) ?_
  rw [abs_neg, abs_of_nonneg (by positivity)]
  have : n < 2 * gN n m := by simp only [gN]; nlinarith
  exact_mod_cast this

theorem bound_sh1_snd (n m : ℕ) (hn : 1 ≤ n) : |(shift1 n m).2| < 1 := by
  rw [shift1_snd]
  refine abs_div_lt_one_of _ _ (two_hZ_pos_q n m hn) ?_
  have h := abs_t1_lt n m hn
  rw [abs_neg]
  calc |((t1Z n m : ℤ) : ℚ)| = ((|t1Z n m| : ℤ) : ℚ) := by rw [Int.cast_abs]
    _ < 2 * (hZ n m : ℚ) := by exact_mod_cast h

theorem bound_sh2_fst (n m : ℕ) (hm : m ≤ n) (hn : 1 ≤ n) : |(shift2 n m).1| < 1 := by
  rw [shift2_fst]
  refine abs_div_lt_one_of _ _ (two_gN_pos_q n m hn) ?_
  rw [abs_neg, abs_of_nonneg (by positivity)]
  have : m < 2 * gN n m := by simp only [gN]; nlinarith
  exact_mod_cast this

theorem bound_sh2_snd (n m : ℕ) (hn : 1 ≤ n) : |(shift2 n m).2| < 1 := by
  rw [shift2_snd]
  refine abs_div_lt_one_of _ _ (two_hZ_pos_q n m hn) ?_
  have h := abs_t2_lt n m hn
  rw [abs_neg]
  calc |((t2Z n m : ℤ) : ℚ)| = ((|t2Z n m| : ℤ) : ℚ) := by rw [Int.cast_abs]
    _ < 2 * (hZ n m : ℚ) := by exact_mod_cast h

/-! ## Claim C8: the coverage argument

`R = (p, q)` together with `T_lat = (t1, t2)` is a basis of the lattice
(determinant `t1*q - t2*p = 1`), and `n_hex * R` is congruent to the
`a1`-generator modulo the sublattice spanned by `(n, m)` and
`(t1, t2)`; hence the multiples `0·R, …, (n_hex - 1)·R` reach every
residue, which is what makes every neighbour lookup succeed. -/

theorem symVec_bezout (n m : ℕ) (p q : ℤ) (h : symVecPQ n m = some (p, q)) :
    t1Z n m * q - t2Z n m * p = 1 := by
  obtain ⟨pn, hpn, h1, h2, hd, hq, hmin⟩ := symVecPQ_some_spec n m p q h
  have := Int.mul_ediv_cancel' hd
  rw [hq]
  linarith

theorem g2_smul_R (n m : ℕ) (hn : 1 ≤ n) (p q : ℤ)
    (hbez : t1Z n m * q - t2Z n m * p = 1) :
    (n_hex_ucell n m : ℤ) * p = (n:ℤ) + ((m:ℤ)*p - (n:ℤ)*q) * t1Z n m ∧
    (n_hex_ucell n m : ℤ) * q = (m:ℤ) + ((m:ℤ)*p - (n:ℤ)*q) * t2Z n m := by
  have hdet := n_hex_eq_det n m hn
  constructor
  · linear_combination p * hdet + (n:ℤ) * hbez
  · linear_combination q * hdet + (m:ℤ) * hbez

theorem coverage_alg (G2 p q t1 t2 nz mz α β iZ K J : ℤ)
    (hbez : t1*q - t2*p = 1)
    (hg2p : G2*p = nz + (mz*p - nz*q)*t1)
    (hg2q : G2*q = mz + (mz*p - nz*q)*t2)
    (hJ : iZ - (β*t1 - α*t2) = G2*K + J) :
    iZ*p - J*p - α = K*nz + (K*(mz*p - nz*q) - (q*α - p*β))*t1 ∧
    iZ*q - J*q - β = K*mz + (K*(mz*p - nz*q) - (q*α - p*β))*t2 := by
  constructor
  · linear_combination p * hJ + K * hg2p + α * hbez
  · linear_combination q * hJ + K * hg2q + β * hbez

/-- For every target residue `(α, β)` and every source index `i` there
is a placement index `j < n_hex_ucell` with
`(i - j)·R - (α, β) ∈ ℤ(n,m) + ℤ(t1,t2)`. -/
theorem coverage (n m : ℕ) (hn : 1 ≤ n) (p q : ℤ)
    (hbez : t1Z n m * q - t2Z n m * p = 1) (α β : ℤ) (i : ℕ) :
    ∃ j : ℕ, j < n_hex_ucell n m ∧ ∃ u v : ℤ,
      (i:ℤ)*p - (j:ℤ)*p - α = u*(n:ℤ) + v*t1Z n m ∧
      (i:ℤ)*q - (j:ℤ)*q - β = u*(m:ℤ) + v*t2Z n m := by
  obtain ⟨hg2p, hg2q⟩ := g2_smul_R n m hn p q hbez
  have hG2pos : (0:ℤ) < (n_hex_ucell n m : ℤ) := by exact_mod_cast n_hex_pos n m hn
  have hmn : 0 ≤ ((i:ℤ) - (β * t1Z n m - α * t2Z n m)) % (n_hex_ucell n m : ℤ) :=
    Int.emod_nonneg _ hG2pos.ne'
  have hml : ((i:ℤ) - (β * t1Z n m - α * t2Z n m)) % (n_hex_ucell n m : ℤ) <
      (n_hex_ucell n m : ℤ) := Int.emod_lt_of_pos _ hG2pos
  have hdiv := Int.ediv_add_emod ((i:ℤ) - (β * t1Z n m - α * t2Z n m)) (n_hex_ucell n m : ℤ)
  have hJcast : ((((i:ℤ) - (β * t1Z n m - α * t2Z n m)) % (n_hex_ucell n m : ℤ)).toNat : ℤ) =
      ((i:ℤ) - (β * t1Z n m - α * t2Z n m)) % (n_hex_ucell n m : ℤ) :=
    Int.toNat_of_nonneg hmn
  obtain ⟨e1, e2⟩ := coverage_alg (n_hex_ucell n m : ℤ) p q (t1Z n m) (t2Z n m) (n:ℤ) (m:ℤ)
      α β (i:ℤ)
      (((i:ℤ) - (β * t1Z n m - α * t2Z n m)) / (n_hex_ucell n m : ℤ))
      (((i:ℤ) - (β * t1Z n m - α * t2Z n m)) % (n_hex_ucell n m : ℤ))
      hbez hg2p hg2q (by linarith)
  refine ⟨(((i:ℤ) - (β * t1Z n m - α * t2Z n m)) % (n_hex_ucell n m : ℤ)).toNat,
    by omega,
    ((i:ℤ) - (β * t1Z n m - α * t2Z n m)) / (n_hex_ucell n m : ℤ),
    ((i:ℤ) - (β * t1Z n m - α * t2Z n m)) / (n_hex_ucell n m : ℤ) * ((m:ℤ)*p - (n:ℤ)*q) -
      (q * α - p * β), ?_, ?_⟩
  · rw [hJcast]
    exact e1
  · rw [hJcast]
    exact e2

/-! ## Claim C8: list-level machinery -/

theorem frame_zero (n m : ℕ) : frame n m (0, 0) = 0 := by
  simp [frame, Prod.ext_iff]

theorem n_atoms_half (n m : ℕ) : n_atoms_ucell n m / 2 = n_hex_ucell n m := by
  simp only [n_atoms_ucell]
  omega

theorem mem_ucellSites_even (n m : ℕ) (p q : ℤ) (i : ℕ) (hi : i < n_hex_ucell n m) :
    ({ idx := 2*i, pos := fracP (frame n m ((i : ℚ) * p, (i : ℚ) * q)), even := true } : Site)
      ∈ ucellSites n m p q := by
  apply List.mem_flatMap.2
  exact ⟨i, List.mem_range.2 (by rw [n_atoms_half]; exact hi), by simp⟩

theorem mem_ucellSites_odd (n m : ℕ) (p q : ℤ) (i : ℕ) (hi : i < n_hex_ucell n m) :
    ({ idx := 2*i+1, pos := fracP (frame n m ((i : ℚ) * p + 1/3, (i : ℚ) * q + 1/3)),
       even := false } : Site) ∈ ucellSites n m p q := by
  apply List.mem_flatMap.2
  exact ⟨i, List.mem_range.2 (by rw [n_atoms_half]; exact hi), by simp⟩

theorem mem_ucellSites_elim (n m : ℕ) (p q : ℤ) (s : Site) (hs : s ∈ ucellSites n m p q) :
    ∃ i, i < n_hex_ucell n m ∧
      (s = { idx := 2*i, pos := fracP (frame n m ((i : ℚ) * p, (i : ℚ) * q)), even := true } ∨
       s = { idx := 2*i+1, pos := fracP (frame n m ((i : ℚ) * p + 1/3, (i : ℚ) * q + 1/3)),
             even := false }) := by
  obtain ⟨i, hi, hmem⟩ := List.mem_flatMap.1 hs
  refine ⟨i, by rw [← n_atoms_half]; exact List.mem_range.1 hi, ?_⟩
  simp only [List.mem_cons, List.mem_singleton, List.not_mem_nil, or_false] at hmem
  tauto

theorem mem_paddedLattice (lat : List Site) (pd : ℤ × ℤ) (hpd : pd ∈ pads) (s : Site)
    (hs : s ∈ lat) :
    ({ s with pos := s.pos + ((pd.1 : ℚ), (pd.2 : ℚ)), pad_ch := pd.1, pad_t := pd.2 } : Site)
      ∈ paddedLattice lat := by
  apply List.mem_flatMap.2
  exact ⟨pd, hpd, List.mem_map.2 ⟨s, hs, rfl⟩⟩

theorem mem_paddedLattice_elim (lat : List Site) (t : Site) (ht : t ∈ paddedLattice lat) :
    ∃ pd ∈ pads, ∃ s ∈ lat,
      t = { s with pos := s.pos + ((pd.1 : ℚ), (pd.2 : ℚ)), pad_ch := pd.1, pad_t := pd.2 } := by
  obtain ⟨pd, hpd, hmem⟩ := List.mem_flatMap.1 ht
  obtain ⟨s, hs, rfl⟩ := List.mem_map.1 hmem
  exact ⟨pd, hpd, s, hs, rfl⟩

theorem mem_pads_of_abs (a b : ℤ) (ha : |a| ≤ 1) (hb : |b| ≤ 1) : (a, b) ∈ pads := by
  rw [abs_le] at ha hb
  have ha' : a = -1 ∨ a = 0 ∨ a = 1 := by omega
  have hb' : b = -1 ∨ b = 0 ∨ b = 1 := by omega
  rcases ha' with rfl | rfl | rfl <;> rcases hb' with rfl | rfl | rfl <;> simp [pads]

theorem filterMap_all_some_length {α β : Type} (f : α → Option β) :
    ∀ l : List α, (∀ x ∈ l, (f x).isSome) → (l.filterMap f).length = l.length := by
  intro l
  induction l with
  | nil => intro _; rfl
  | cons a l ih =>
    intro h
    obtain ⟨b, hb⟩ := Option.isSome_iff_exists.1 (h a (List.mem_cons_self a l))
    rw [List.filterMap_cons, hb]
    simp only [List.length_cons]
    rw [ih fun x hx => h x (List.mem_cons_of_mem a hx)]

theorem find?_isSome_of_mem (l : List Site) (c : ℚ × ℚ) (h : ∃ t ∈ l, t.pos = c) :
    (l.find? fun t => decide (t.pos = c)).isSome := by
  obtain ⟨t, ht, hpos⟩ := h
  rw [List.find?_isSome]
  exact ⟨t, ht, by simp [hpos]⟩

theorem sowCellsAux_mem (nuc luc : ℕ) (b1 b2 : String) :
    ∀ (j : ℕ) (l : List Site) (x : Site), x ∈ sowCellsAux nuc luc b1 b2 j l →
      ∃ s ∈ l, x = s ∨ ∃ i, x = sowSite nuc luc i b1 b2 s := by
  intro j l
  induction l generalizing j with
  | nil => intro x hx; cases hx
  | cons s rest ih =>
    intro x hx
    simp only [sowCellsAux, List.mem_cons] at hx
    rcases hx with hx | hx
    · refine ⟨s, List.mem_cons_self s rest, ?_⟩
      split_ifs at hx
      · exact Or.inr ⟨j / luc, hx⟩
      · exact Or.inl hx
    · obtain ⟨s', hs', hcase⟩ := ih (j+1) x hx
      exact ⟨s', List.mem_cons_of_mem s hs', hcase⟩

theorem resolveBond_periodic_isSome (nuc luc i : ℕ) (b : ℕ × ℤ × ℤ)
    (ht : b.2.2 = -1 ∨ b.2.2 = 0 ∨ b.2.2 = 1) :
    (resolveBond nuc luc i "periodic" "periodic" b).isSome := by
  rcases ht with h | h | h <;>
    simp [resolveBond, h]

/-- Combine `Int.fract`, a bounded shift and an integer combination
into an explicitly integral difference with pad in `[-1, 1]`. -/
theorem frac_diff_int (x y s : ℚ) (u : ℤ) (hs : |s| < 1)
    (hcomb : x + s - y = (u : ℚ)) :
    Int.fract x + s - Int.fract y = ((u + ⌊y⌋ - ⌊x⌋ : ℤ) : ℚ) ∧ |u + ⌊y⌋ - ⌊x⌋| ≤ 1 := by
  have h1 : 0 ≤ Int.fract x := Int.fract_nonneg x
  have h2 : Int.fract x < 1 := Int.fract_lt_one x
  have h3 : 0 ≤ Int.fract y := Int.fract_nonneg y
  have h4 : Int.fract y < 1 := Int.fract_lt_one y
  have habs := abs_lt.1 hs
  have hval : Int.fract x + s - Int.fract y = ((u + ⌊y⌋ - ⌊x⌋ : ℤ) : ℚ) := by
    simp only [Int.fract]
    push_cast
    linarith
  refine ⟨hval, ?_⟩
  have hlow : (-2 : ℚ) < ((u + ⌊y⌋ - ⌊x⌋ : ℤ) : ℚ) := by
    rw [← hval]
    linarith
  have hhigh : ((u + ⌊y⌋ - ⌊x⌋ : ℤ) : ℚ) < 2 := by
    rw [← hval]
    linarith
  have hl : (-2 : ℤ) < u + ⌊y⌋ - ⌊x⌋ := by exact_mod_cast hlow
  have hh : u + ⌊y⌋ - ⌊x⌋ < 2 := by exact_mod_cast hhigh
  rw [abs_le]
  omega

/-! ## Claim C8: every neighbour candidate has a padded-lattice match -/

/-- For an even site `i` and any of the three shifts (parametrised by
the lattice vector `(α, β)` with `shift = shift0 - frame (α, β)`),
some padded site sits exactly at the candidate position. -/
theorem exists_match_even (n m : ℕ) (hn : 1 ≤ n) (p q : ℤ)
    (hbez : t1Z n m * q - t2Z n m * p = 1) (i : ℕ) (α β : ℤ)
    (hb1 : |(shift0 n m - frame n m ((α:ℚ), (β:ℚ))).1| < 1)
    (hb2 : |(shift0 n m - frame n m ((α:ℚ), (β:ℚ))).2| < 1) :
    ∃ t ∈ paddedLattice (ucellSites n m p q),
      t.pos = fracP (frame n m ((i:ℚ)*p, (i:ℚ)*q)) +
        (shift0 n m - frame n m ((α:ℚ), (β:ℚ))) := by
  obtain ⟨j, hj, u, v, e1, e2⟩ := coverage n m hn p q hbez α β i
  have hframe := frame_of_decomp n m hn
      ((i:ℚ)*(p:ℚ) - (j:ℚ)*(p:ℚ) - (α:ℚ)) ((i:ℚ)*(q:ℚ) - (j:ℚ)*(q:ℚ) - (β:ℚ)) u v
      (by exact_mod_cast e1) (by exact_mod_cast e2)
  have hcomb1 : (frame n m ((i:ℚ)*p, (i:ℚ)*q)).1 +
      (shift0 n m - frame n m ((α:ℚ), (β:ℚ))).1 -
      (frame n m ((j:ℚ)*p + 1/3, (j:ℚ)*q + 1/3)).1 =
      (frame n m ((i:ℚ)*(p:ℚ) - (j:ℚ)*(p:ℚ) - (α:ℚ),
        (i:ℚ)*(q:ℚ) - (j:ℚ)*(q:ℚ) - (β:ℚ))).1 := by
    simp only [frame, shift0, Prod.fst_sub]
    ring
  have hcomb2 : (frame n m ((i:ℚ)*p, (i:ℚ)*q)).2 +
      (shift0 n m - frame n m ((α:ℚ), (β:ℚ))).2 -
      (frame n m ((j:ℚ)*p + 1/3, (j:ℚ)*q + 1/3)).2 =
      (frame n m ((i:ℚ)*(p:ℚ) - (j:ℚ)*(p:ℚ) - (α:ℚ),
        (i:ℚ)*(q:ℚ) - (j:ℚ)*(q:ℚ) - (β:ℚ))).2 := by
    simp only [frame, shift0, Prod.snd_sub]
    ring
  have hx1 : (frame n m ((i:ℚ)*p, (i:ℚ)*q)).1 +
      (shift0 n m - frame n m ((α:ℚ), (β:ℚ))).1 -
      (frame n m ((j:ℚ)*p + 1/3, (j:ℚ)*q + 1/3)).1 = (u : ℚ) := by
    rw [hcomb1, hframe]
  have hx2 : (frame n m ((i:ℚ)*p, (i:ℚ)*q)).2 +
      (shift0 n m - frame n m ((α:ℚ), (β:ℚ))).2 -
      (frame n m ((j:ℚ)*p + 1/3, (j:ℚ)*q + 1/3)).2 = (v : ℚ) := by
    rw [hcomb2, hframe]
  obtain ⟨hD1, hD1b⟩ := frac_diff_int _ _ _ u hb1 hx1
  obtain ⟨hD2, hD2b⟩ := frac_diff_int _ _ _ v hb2 hx2
  refine ⟨_, mem_paddedLattice (ucellSites n m p q)
      (u + ⌊(frame n m ((j:ℚ)*p + 1/3, (j:ℚ)*q + 1/3)).1⌋ -
         ⌊(frame n m ((i:ℚ)*p, (i:ℚ)*q)).1⌋,
       v + ⌊(frame n m ((j:ℚ)*p + 1/3, (j:ℚ)*q + 1/3)).2⌋ -
         ⌊(frame n m ((i:ℚ)*p, (i:ℚ)*q)).2⌋)
      (mem_pads_of_abs _ _ hD1b hD2b) _ (mem_ucellSites_odd n m p q j hj), ?_⟩
  refine Prod.ext ?_ ?_
  · show (fracP (frame n m ((j:ℚ)*p + 1/3, (j:ℚ)*q + 1/3))).1 + _ = _
    simp only [fracP, Prod.fst_add]
    rw [← hD1]
    ring
  · show (fracP (frame n m ((j:ℚ)*p + 1/3, (j:ℚ)*q + 1/3))).2 + _ = _
    simp only [fracP, Prod.snd_add]
    rw [← hD2]
    ring

/-- For an odd site `i` the candidate positions are
`pos - (shift0 - frame (α, β))`, matched by an even padded site. -/
theorem exists_match_odd (n m : ℕ) (hn : 1 ≤ n) (p q : ℤ)
    (hbez : t1Z n m * q - t2Z n m * p = 1) (i : ℕ) (α β : ℤ)
    (hb1 : |(shift0 n m - frame n m ((α:ℚ), (β:ℚ))).1| < 1)
    (hb2 : |(shift0 n m - frame n m ((α:ℚ), (β:ℚ))).2| < 1) :
    ∃ t ∈ paddedLattice (ucellSites n m p q),
      t.pos = fracP (frame n m ((i:ℚ)*p + 1/3, (i:ℚ)*q + 1/3)) -
        (shift0 n m - frame n m ((α:ℚ), (β:ℚ))) := by
  obtain ⟨j, hj, u, v, e1, e2⟩ := coverage n m hn p q hbez (-α) (-β) i
  have e1q : (i:ℚ)*(p:ℚ) - (j:ℚ)*(p:ℚ) + (α:ℚ) =
      (u:ℚ)*(n:ℚ) + (v:ℚ)*((t1Z n m : ℤ):ℚ) := by
    have := congrArg (fun z : ℤ => (z : ℚ)) e1
    push_cast at this
    linarith
  have e2q : (i:ℚ)*(q:ℚ) - (j:ℚ)*(q:ℚ) + (β:ℚ) =
      (u:ℚ)*(m:ℚ) + (v:ℚ)*((t2Z n m : ℤ):ℚ) := by
    have := congrArg (fun z : ℤ => (z : ℚ)) e2
    push_cast at this
    linarith
  have hframe := frame_of_decomp n m hn
      ((i:ℚ)*(p:ℚ) - (j:ℚ)*(p:ℚ) + (α:ℚ)) ((i:ℚ)*(q:ℚ) - (j:ℚ)*(q:ℚ) + (β:ℚ)) u v e1q e2q
  have hcomb1 : (frame n m ((i:ℚ)*p + 1/3, (i:ℚ)*q + 1/3)).1 +
      (-(shift0 n m - frame n m ((α:ℚ), (β:ℚ))).1) -
      (frame n m ((j:ℚ)*p, (j:ℚ)*q)).1 =
      (frame n m ((i:ℚ)*(p:ℚ) - (j:ℚ)*(p:ℚ) + (α:ℚ),
        (i:ℚ)*(q:ℚ) - (j:ℚ)*(q:ℚ) + (β:ℚ))).1 := by
    simp only [frame, shift0, Prod.fst_sub]
    ring
  have hcomb2 : (frame n m ((i:ℚ)*p + 1/3, (i:ℚ)*q + 1/3)).2 +
      (-(shift0 n m - frame n m ((α:ℚ), (β:ℚ))).2) -
      (frame n m ((j:ℚ)*p, (j:ℚ)*q)).2 =
      (frame n m ((i:ℚ)*(p:ℚ) - (j:ℚ)*(p:ℚ) + (α:ℚ),
        (i:ℚ)*(q:ℚ) - (j:ℚ)*(q:ℚ) + (β:ℚ))).2 := by
    simp only [frame, shift0, Prod.snd_sub]
    ring
  have hx1 : (frame n m ((i:ℚ)*p + 1/3, (i:ℚ)*q + 1/3)).1 +
      (-(shift0 n m - frame n m ((α:ℚ), (β:ℚ))).1) -
      (frame n m ((j:ℚ)*p, (j:ℚ)*q)).1 = (u : ℚ) := by
    rw [hcomb1, hframe]
  have hx2 : (frame n m ((i:ℚ)*p + 1/3, (i:ℚ)*q + 1/3)).2 +
      (-(shift0 n m - frame n m ((α:ℚ), (β:ℚ))).2) -
      (frame n m ((j:ℚ)*p, (j:ℚ)*q)).2 = (v : ℚ) := by
    rw [hcomb2, hframe]
  obtain ⟨hD1, hD1b⟩ := frac_diff_int _ _ _ u (by rw [abs_neg]; exact hb1) hx1
  obtain ⟨hD2, hD2b⟩ := frac_diff_int _ _ _ v (by rw [abs_neg]; exact hb2) hx2
  refine ⟨_, mem_paddedLattice (ucellSites n m p q)
      (u + ⌊(frame n m ((j:ℚ)*p, (j:ℚ)*q)).1⌋ -
         ⌊(frame n m ((i:ℚ)*p + 1/3, (i:ℚ)*q + 1/3)).1⌋,
       v + ⌊(frame n m ((j:ℚ)*p, (j:ℚ)*q)).2⌋ -
         ⌊(frame n m ((i:ℚ)*p + 1/3, (i:ℚ)*q + 1/3)).2⌋)
      (mem_pads_of_abs _ _ hD1b hD2b) _ (mem_ucellSites_even n m p q j hj), ?_⟩
  simp only [Prod.fst_sub] at hD1
  simp only [Prod.snd_sub] at hD2
  refine Prod.ext ?_ ?_
  · show (fracP (frame n m ((j:ℚ)*p, (j:ℚ)*q))).1 + _ = _
    simp only [fracP, Prod.fst_add, Prod.fst_sub]
    linarith [hD1]
  · show (fracP (frame n m ((j:ℚ)*p, (j:ℚ)*q))).2 + _ = _
    simp only [fracP, Prod.snd_add, Prod.snd_sub]
    linarith [hD2]

/-! ## Claim C8: every unit-cell site gets its three bonds -/

theorem frame_cast_zero_zero (n m : ℕ) :
    frame n m ((((0:ℤ)):ℚ), (((0:ℤ)):ℚ)) = 0 := by
  push_cast
  exact frame_zero n m

theorem frame_cast_one_zero (n m : ℕ) :
    frame n m ((((1:ℤ)):ℚ), (((0:ℤ)):ℚ)) = frame n m (1, 0) := by
  push_cast
  rfl

theorem frame_cast_zero_one (n m : ℕ) :
    frame n m ((((0:ℤ)):ℚ), (((1:ℤ)):ℚ)) = frame n m (0, 1) := by
  push_cast
  rfl

/-- Each of the three neighbour lookups of `_connect_sites` succeeds,
for every site of the unit cell and every chirality with `n ≥ m ≥ 0`,
`n ≥ 1`. -/
theorem lookup_isSome (n m : ℕ) (hm : m ≤ n) (hn : 1 ≤ n) (p q : ℤ)
    (hbez : t1Z n m * q - t2Z n m * p = 1) (site : Site)
    (hsite : site ∈ ucellSites n m p q) :
    ∀ sh ∈ shifts n m,
      ((paddedLattice (ucellSites n m p q)).find? fun t =>
        decide (t.pos = if site.even then site.pos + sh else site.pos - sh)).isSome := by
  have hb00_1 : |(shift0 n m - frame n m ((((0:ℤ)):ℚ), (((0:ℤ)):ℚ))).1| < 1 := by
    rw [frame_cast_zero_zero, sub_zero]
    exact bound_sh0_fst n m hm hn
  have hb00_2 : |(shift0 n m - frame n m ((((0:ℤ)):ℚ), (((0:ℤ)):ℚ))).2| < 1 := by
    rw [frame_cast_zero_zero, sub_zero]
    exact bound_sh0_snd n m hm hn
  have hb10_1 : |(shift0 n m - frame n m ((((1:ℤ)):ℚ), (((0:ℤ)):ℚ))).1| < 1 := by
    rw [frame_cast_one_zero]
    exact bound_sh1_fst n m hn
  have hb10_2 : |(shift0 n m - frame n m ((((1:ℤ)):ℚ), (((0:ℤ)):ℚ))).2| < 1 := by
    rw [frame_cast_one_zero]
    exact bound_sh1_snd n m hn
  have hb01_1 : |(shift0 n m - frame n m ((((0:ℤ)):ℚ), (((1:ℤ)):ℚ))).1| < 1 := by
    rw [frame_cast_zero_one]
    exact bound_sh2_fst n m hm hn
  have hb01_2 : |(shift0 n m - frame n m ((((0:ℤ)):ℚ), (((1:ℤ)):ℚ))).2| < 1 := by
    rw [frame_cast_zero_one]
    exact bound_sh2_snd n m hn
  intro sh hsh
  apply find?_isSome_of_mem
  obtain ⟨i, hi, hcase⟩ := mem_ucellSites_elim n m p q site hsite
  simp only [shifts, List.mem_cons, List.not_mem_nil, or_false] at hsh
  rcases hcase with rfl | rfl
  · rcases hsh with rfl | rfl | rfl
    · obtain ⟨t, ht, hpos⟩ := exists_match_even n m hn p q hbez i 0 0 hb00_1 hb00_2
      rw [frame_cast_zero_zero, sub_zero] at hpos
      exact ⟨t, ht, hpos⟩
    · obtain ⟨t, ht, hpos⟩ := exists_match_even n m hn p q hbez i 1 0 hb10_1 hb10_2
      rw [frame_cast_one_zero] at hpos
      exact ⟨t, ht, hpos⟩
    · obtain ⟨t, ht, hpos⟩ := exists_match_even n m hn p q hbez i 0 1 hb01_1 hb01_2
      rw [frame_cast_zero_one] at hpos
      exact ⟨t, ht, hpos⟩
  · rcases hsh with rfl | rfl | rfl
    · obtain ⟨t, ht, hpos⟩ := exists_match_odd n m hn p q hbez i 0 0 hb00_1 hb00_2
      rw [frame_cast_zero_zero, sub_zero] at hpos
      exact ⟨t, ht, hpos⟩
    · obtain ⟨t, ht, hpos⟩ := exists_match_odd n m hn p q hbez i 1 0 hb10_1 hb10_2
      rw [frame_cast_one_zero] at hpos
      exact ⟨t, ht, hpos⟩
    · obtain ⟨t, ht, hpos⟩ := exists_match_odd n m hn p q hbez i 0 1 hb01_1 hb01_2
      rw [frame_cast_zero_one] at hpos
      exact ⟨t, ht, hpos⟩

/-- Every site of the connected unit cell has exactly three neighbours,
matching hopping/crossing lists, and crossing flags in `{-1, 0, +1}`. -/
theorem connectSites_good (n m : ℕ) (hm : m ≤ n) (hn : 1 ≤ n) (p q : ℤ)
    (hbez : t1Z n m * q - t2Z n m * p = 1) :
    ∀ s' ∈ connectSites n m (ucellSites n m p q),
      s'.neighbours.length = 3 ∧ s'.cross_ch.length = 3 ∧ s'.cross_t.length = 3 ∧
      ∀ x ∈ s'.cross_t, x = -1 ∨ x = 0 ∨ x = 1 := by
  intro s' hs'
  simp only [connectSites, List.mem_map] at hs'
  obtain ⟨site0, h0, rfl⟩ := hs'
  have hflen : (((shifts n m).filterMap fun sh =>
      (paddedLattice (ucellSites n m p q)).find? fun t =>
        decide (t.pos = if site0.even then site0.pos + sh else site0.pos - sh)).length) = 3 := by
    rw [filterMap_all_some_length _ _ (lookup_isSome n m hm hn p q hbez site0 h0)]
    rfl
  refine ⟨?_, ?_, ?_, ?_⟩
  · simp only [List.length_map]
    exact hflen
  · simp only [List.length_map]
    exact hflen
  · simp only [List.length_map]
    exact hflen
  · intro x hx
    simp only [List.mem_map] at hx
    obtain ⟨t, ht, rfl⟩ := hx
    obtain ⟨sh, hsh, hfind⟩ := List.mem_filterMap.1 ht
    have htp : t ∈ paddedLattice (ucellSites n m p q) := List.mem_of_find?_eq_some hfind
    obtain ⟨pd, hpd, s, hs, rfl⟩ := mem_paddedLattice_elim _ _ htp
    have : pd.2 = -1 ∨ pd.2 = 0 ∨ pd.2 = 1 := by
      simp only [pads, List.mem_cons, List.not_mem_nil, or_false] at hpd
      rcases hpd with h | h | h | h | h | h | h | h | h <;> rw [h] <;> simp
    exact this

theorem sowSite_periodic_length (nuc luc i : ℕ) (s : Site)
    (h1 : s.neighbours.length = 3) (h2 : s.cross_ch.length = 3) (h3 : s.cross_t.length = 3)
    (h4 : ∀ x ∈ s.cross_t, x = -1 ∨ x = 0 ∨ x = 1) :
    (sowSite nuc luc i "periodic" "periodic" s).neighbours.length = 3 := by
  show ((s.neighbours.zip (s.cross_ch.zip s.cross_t)).filterMap
      (resolveBond nuc luc i "periodic" "periodic")).length = 3
  rw [filterMap_all_some_length]
  · rw [List.length_zip, List.length_zip, h1, h2, h3]
    rfl
  · intro b hb
    obtain ⟨nb, xchv, xtv⟩ := b
    apply resolveBond_periodic_isSome
    exact h4 xtv (List.mem_zip (List.mem_zip hb).2).2

/-- Claim C8: for every valid chirality and every length, a ribbon built
with both boundary conditions periodic exists (the symmetry-vector
search succeeds) and has exactly 3 neighbours at every site.  The
spacing does not enter: connectivity is invariant under uniform scaling
of all positions, which is why the embedding's exact coordinate frame
carries no spacing factor. -/
theorem claim_C8 (n m nuc : ℕ) (hm : m ≤ n) (hn : 1 ≤ n) :
    ∃ ribbon, makeRibbon n m nuc "periodic" "periodic" = some ribbon ∧
      ∀ site ∈ ribbon, site.neighbours.length = 3 := by
  obtain ⟨pq, hpq⟩ := Option.ne_none_iff_exists'.mp (symVec_exists n m hm hn)
  obtain ⟨p, q⟩ := pq
  have hbez := symVec_bezout n m p q hpq
  have hgood := connectSites_good n m hm hn p q hbez
  have hmu : makeUcell n m = some (connectSites n m (ucellSites n m p q)) := by
    rw [makeUcell, hpq]
    rfl
  refine ⟨_, by rw [makeRibbon, hmu]; rfl, ?_⟩
  intro site hsite
  obtain ⟨s, hs, hcase⟩ := sowCellsAux_mem nuc _ "periodic" "periodic" 0 _ site hsite
  obtain ⟨iCell, hiCell, hmem2⟩ := List.mem_flatMap.1 hs
  obtain ⟨s0, hs0, rfl⟩ := List.mem_map.1 hmem2
  obtain ⟨hg1, hg2, hg3, hg4⟩ := hgood s0 hs0
  have e1 : ({ s0 with idx := s0.idx + iCell * (connectSites n m (ucellSites n m p q)).length,
                       pos := s0.pos + ((0:ℚ), (iCell:ℚ)) } : Site).neighbours
      = s0.neighbours := rfl
  have e2 : ({ s0 with idx := s0.idx + iCell * (connectSites n m (ucellSites n m p q)).length,
                       pos := s0.pos + ((0:ℚ), (iCell:ℚ)) } : Site).cross_ch
      = s0.cross_ch := rfl
  have e3 : ({ s0 with idx := s0.idx + iCell * (connectSites n m (ucellSites n m p q)).length,
                       pos := s0.pos + ((0:ℚ), (iCell:ℚ)) } : Site).cross_t
      = s0.cross_t := rfl
  rcases hcase with rfl | ⟨jj, rfl⟩
  · rw [e1]
    exact hg1
  · apply sowSite_periodic_length
    · rw [e1]; exact hg1
    · rw [e2]; exact hg2
    · rw [e3]; exact hg3
    · rw [e3]; exact hg4

/-- Witness for C8: the `(1, 1)` armchair ribbon with two unit cells. -/
theorem claim_C8_witness :
    ∃ ribbon, makeRibbon 1 1 2 "periodic" "periodic" = some ribbon ∧
      ∀ site ∈ ribbon, site.neighbours.length = 3 :=
  claim_C8 1 1 2 (by omega) (by omega)

end TG
